import Mathlib

/-!
# SPHINCS-256 hypertree engine (`sign.go`) — shallow embedding and verification

This file embeds the SPHINCS-256 core (package `sphincs256`, file `sign.go`)
into Lean 4 and proves/refutes the frozen claims about it.

Modelling conventions:

* Byte buffers are `List Nat`; every byte produced by a primitive wrapper is
  reduced `% 256`, mirroring the Go `byte` type.
* The external hash collaborators (the masked two-to-one compression
  `hash.Hash_2n_n_mask`, the one-block hash used inside WOTS chains and HORST
  leaves, `hash.Varlen`, the 512-bit `blake512` digest, and the two seed
  expanders) are out of scope for the repository (spec §1, §6).  They are
  abstracted as a parameter structure `Prims`; every definition and theorem is
  uniform in it.
* Fixed-size Go arrays (`[n]byte`) are modelled by `fit n`, which pads or
  truncates to exactly `n` bytes, matching `copy` into a zeroed array.
* The packages `wots` and `horst` are code of this repository that is not in
  `src/`; they are modelled from the spec (§4.2, §4.3) and marked
  `Modelled from the spec:` in their doc comments.
* Go slice writes in `sign.go` always target disjoint, consecutive regions of
  the signature buffer which are all overwritten by the end of `Sign`; the
  embedding therefore builds the signature by concatenation, in the exact
  order the code writes it.
-/

namespace Sphincs

/-! ## Compile-time constants (sign.go lines 21-38) -/

/-- `hash.Size` -/
def hashSize : Nat := 32

/-- `subtreeHeight = 5` -/
def subtreeHeight : Nat := 5

/-- `totalTreeHeight = 60` -/
def totalTreeHeight : Nat := 60

/-- `nLevels = totalTreeHeight / subtreeHeight = 12` -/
def nLevels : Nat := totalTreeHeight / subtreeHeight

/-- `seedBytes = 32` -/
def seedBytes : Nat := 32

/-- `skRandSeedBytes = 32` -/
def skRandSeedBytes : Nat := 32

/-- `messageHashSeedBytes = 32` -/
def messageHashSeedBytes : Nat := 32

/-- `horst.LogT = 16` -/
def horstLogT : Nat := 16

/-- `horst.K = 32` revealed secrets -/
def horstK : Nat := 32

/-- `nMasks = 2 * horst.LogT = 32` -/
def nMasks : Nat := 2 * horstLogT

/-- `wots.W = 16` -/
def wotsW : Nat := 16

/-- `wots.L1 = 64` message digits -/
def wotsL1 : Nat := 64

/-- `wots.L = 67` chains -/
def wotsL : Nat := 67

/-- `wots.LogL = 7` -/
def wotsLogL : Nat := 7

/-- `wots.SigBytes = wots.L * hash.Size = 2144` -/
def wotsSigBytes : Nat := wotsL * hashSize

/-- `horst.SigBytes = 13312`: 32 blocks of (secret ‖ 10-node authpath) plus
the 64 revealed level-10 nodes, every node 32 bytes. -/
def horstSigBytes : Nat := horstK * (hashSize + (horstLogT - 6) * hashSize) + 64 * hashSize

/-- `PublicKeySize = (nMasks + 1) * hash.Size = 1056` -/
def PublicKeySize : Nat := (nMasks + 1) * hashSize

/-- `PrivateKeySize = seedBytes + PublicKeySize - hash.Size + skRandSeedBytes = 1088` -/
def PrivateKeySize : Nat := seedBytes + PublicKeySize - hashSize + skRandSeedBytes

/-- `SignatureSize = 41000` (sign.go line 29) -/
def SignatureSize : Nat :=
  messageHashSeedBytes + (totalTreeHeight + 7) / 8 + horstSigBytes +
    (totalTreeHeight / subtreeHeight) * wotsSigBytes + totalTreeHeight * hashSize

/-! ## Abstract external primitives -/

/-- The external hash collaborators of the core (spec §6).  All are pure
functions; output bytes are reduced `% 256` by the wrappers below. -/
structure Prims where
  /-- `hash.Hash_2n_n_mask`: 32-byte digest of a 64-byte input and a
  64-byte mask. -/
  hash2 : (Fin 64 → Nat) → (Fin 64 → Nat) → Fin 32 → Nat
  /-- the one-block (n-to-n) hash used for WOTS chain steps and HORST
  leaves; the XOR with the mask block is applied before calling it. -/
  hash1 : (Fin 32 → Nat) → Fin 32 → Nat
  /-- `hash.Varlen`: 32-byte digest of an arbitrary buffer. -/
  varlen : List Nat → Fin 32 → Nat
  /-- `blake512`: 64-byte digest of the concatenated written stream. -/
  blake : List Nat → Fin 64 → Nat
  /-- the WOTS secret-key stream expansion (seed, byte index) ↦ byte. -/
  wotsExpand : List Nat → Nat → Nat
  /-- the HORST secret stream expansion (seed, byte index) ↦ byte. -/
  horstExpand : List Nat → Nat → Nat

/-- Fixed-size Go array: `copy` of `l` into a fresh zeroed `[n]byte`. -/
def fit (n : Nat) (l : List Nat) : List Nat :=
  (l ++ List.replicate n 0).take n

/-- `hash.Hash_2n_n_mask(out, in, mask)`: reads the first 64 bytes of each
slice argument, emits 32 bytes. -/
def h2B (P : Prims) (inp mask : List Nat) : List Nat :=
  List.ofFn fun i : Fin 32 => P.hash2 (fun j => inp.getD j.1 0) (fun j => mask.getD j.1 0) i % 256

/-- The one-block hash: reads 32 bytes, emits 32 bytes. -/
def f1B (P : Prims) (inp : List Nat) : List Nat :=
  List.ofFn fun i : Fin 32 => P.hash1 (fun j => inp.getD j.1 0) i % 256

/-- `hash.Varlen(out, buffer)`: 32-byte output. -/
def varlenB (P : Prims) (inp : List Nat) : List Nat :=
  List.ofFn fun i : Fin 32 => P.varlen inp i % 256

/-- `blake512` digest of a written byte stream: 64-byte output. -/
def blakeB (P : Prims) (inp : List Nat) : List Nat :=
  List.ofFn fun i : Fin 64 => P.blake inp i % 256

/-- Bytewise XOR of a 32-byte block against the head of a mask slice. -/
def xorB (a b : List Nat) : List Nat :=
  List.ofFn fun i : Fin 32 => Nat.xor (a.getD i.1 0) (b.getD i.1 0)

/-- `binary.LittleEndian.PutUint64` / the 8-byte little-endian serialization
loop of `Sign` (sign.go lines 253-255): byte `i` is `(t >> 8i) & 0xff`. -/
def leU64Bytes (t : Nat) : List Nat :=
  List.ofFn fun i : Fin 8 => t >>> (8 * i.1) % 256

/-- `binary.LittleEndian.Uint64` / the little-endian parse loop of `Verify`
(sign.go lines 302-304): OR together the 8 bytes shifted into place. -/
def leU64 (l : List Nat) : Nat :=
  (List.range 8).foldl (fun acc i => acc ||| (l.getD i 0 <<< (8 * i))) 0

/-! ## Leaf addresses (sign.go lines 40-61) -/

/-- `leafaddr`: 4-bit level, 55-bit subtree, 5-bit subleaf. -/
structure Leafaddr where
  level : Nat
  subtree : Nat
  subleaf : Nat
deriving Repr, DecidableEq

/-- The 64-bit address packing of `getSeed` (sign.go lines 52-57), with the
`uint64` wraparound of each Go shift made explicit. -/
def addrPack (a : Leafaddr) : Nat :=
  (a.level % 2 ^ 64) ||| ((a.subtree <<< 4) % 2 ^ 64) ||| (((a.subleaf % 2 ^ 64) <<< 59) % 2 ^ 64)

/-- The 40-byte buffer hashed by `getSeed`: `sk[0:32] ‖ LE-u64(packed address)`. -/
def getSeedInput (sk : List Nat) (a : Leafaddr) : List Nat :=
  sk.take seedBytes ++ leU64Bytes (addrPack a)

/-- `getSeed` (sign.go lines 46-61): the variable-length hash of
`sk[0:32] ‖ LE-u64(level | subtree<<4 | subleaf<<59)`. -/
def getSeed (P : Prims) (sk : List Nat) (a : Leafaddr) : List Nat :=
  varlenB P (getSeedInput sk a)

/-! ## WOTS+ (contract of spec §4.2)

The `wots` package is code of this repository that is not under `src/`; the
definitions below are modelled from the spec. -/

/-- Modelled from the spec: the `i`-th 32-byte WOTS secret-key block, obtained
by expanding `seed` with the external stream construction (§4.2 `pkgen`). -/
def skBlock (P : Prims) (seed : List Nat) (i : Nat) : List Nat :=
  List.ofFn fun j : Fin 32 => P.wotsExpand seed (i * 32 + j.1) % 256

/-- Modelled from the spec: `n` steps of the Winternitz chain starting at
absolute step `start`; step `s` hashes the block XORed with the per-step mask
`masks[s*32 .. s*32+32]` (§4.2: chain masks occupy `masks[0 .. (w−2)·32]`). -/
def chain (P : Prims) (masks : List Nat) (x : List Nat) : Nat → Nat → List Nat
  | _, 0 => x
  | start, n + 1 => chain P masks (f1B P (xorB x (masks.drop (start * 32)))) (start + 1) n

/-- Modelled from the spec: the 64 base-16 digits of a 32-byte digest, low
nibble of each byte first (§4.2 `sign`). -/
def baseW (msg : List Nat) : List Nat :=
  (List.range 32).flatMap fun i => [msg.getD i 0 % 16, msg.getD i 0 / 16 % 16]

/-- Modelled from the spec: the checksum — the sum of the complements
`w − 1 − digit` of the 64 message digits. -/
def wotsChecksum (d : List Nat) : Nat :=
  (d.map fun x => 15 - x).sum

/-- Modelled from the spec: all 67 chain lengths — the 64 message digits
followed by the 3 base-16 big-endian checksum digits. -/
def wotsDigits (msg : List Nat) : List Nat :=
  baseW msg ++ [wotsChecksum (baseW msg) / 256 % 16, wotsChecksum (baseW msg) / 16 % 16,
    wotsChecksum (baseW msg) % 16]

/-- Modelled from the spec: `wots.Pkgen(pk, seed, masks)` — every chain walked
to its endpoint (step `w − 1 = 15`); output is the 67·32-byte concatenation. -/
def wotsPkgen (P : Prims) (seed masks : List Nat) : List Nat :=
  (List.range wotsL).flatMap fun i => chain P masks (skBlock P seed i) 0 15

/-- Modelled from the spec: `wots.Sign(sig, msg, seed, masks)` — chain `i`
walked `digit i` steps from the secret block. -/
def wotsSign (P : Prims) (msg seed masks : List Nat) : List Nat :=
  (List.range wotsL).flatMap fun i => chain P masks (skBlock P seed i) 0 ((wotsDigits msg).getD i 0)

/-- Modelled from the spec: `wots.Verify(pk, sig, msg, masks)` — every chain
completed from step `digit i` to step `w − 1`, returning the implied public
key. -/
def wotsVerify (P : Prims) (sig msg masks : List Nat) : List Nat :=
  (List.range wotsL).flatMap fun i =>
    chain P masks ((sig.drop (32 * i)).take 32) ((wotsDigits msg).getD i 0)
      (15 - (wotsDigits msg).getD i 0)

/-! ## L-tree (sign.go lines 63-78)

`lTree` repeatedly pair-hashes adjacent 32-byte blocks in place; the buffer
only ever moves whole blocks, so the embedding works on the list of blocks. -/

/-- One round of `lTree` (sign.go lines 65-75): hash the `⌊l/2⌋` adjacent
pairs with the level-`i` mask pair at `masks[i*2*32:]`, promote an odd last
block unchanged. -/
def lTreeRound (P : Prims) (masks : List Nat) (i : Nat) (bs : List (List Nat)) : List (List Nat) :=
  (List.range (bs.length / 2)).map
      (fun j => h2B P (bs.getD (2 * j) [] ++ bs.getD (2 * j + 1) []) (masks.drop (i * 2 * 32)))
    ++ (if bs.length % 2 = 1 then [bs.getD (bs.length - 1) []] else [])

/-- `lTree(leaf, wotsPk, masks)` (sign.go lines 63-78): seven rounds starting
from the 67 blocks of the WOTS public key, then the first block is the leaf. -/
def lTree (P : Prims) (wotsPk masks : List Nat) : List Nat :=
  ((List.range wotsLogL).foldl (fun bs i => lTreeRound P masks i bs)
      (List.ofFn fun i : Fin wotsL => (wotsPk.drop (32 * i.1)).take 32)).getD 0 []

/-- `genLeafWots` (sign.go lines 80-87): seed, WOTS public key, L-tree leaf. -/
def genLeafWots (P : Prims) (masks sk : List Nat) (a : Leafaddr) : List Nat :=
  lTree P (wotsPkgen P (getSeed P sk a) masks) masks

/-! ## The stack-based `treehash` (sign.go lines 89-110) -/

/-- The inner `for stackoffset > 1 && stacklevels[stackoffset-1] ==
stacklevels[stackoffset-2]` loop of `treehash` (sign.go lines 101-107),
on the stack represented top-first: while the two topmost entries have equal
levels, replace them by their masked hash (left entry is the deeper one). -/
def collapse (P : Prims) (masks : List Nat) : List (List Nat × Nat) → List (List Nat × Nat)
  | [] => []
  | [x] => [x]
  | x :: y :: rest =>
    if x.2 = y.2 then
      collapse P masks ((h2B P (y.1 ++ x.1) (masks.drop (2 * (x.2 + wotsLogL) * 32)), x.2 + 1) :: rest)
    else x :: y :: rest
termination_by st => st.length

/-- `treehash(node, height, sk, leaf, masks)` (sign.go lines 89-110): push the
`2^height` WOTS L-tree leaves starting at `leaf.subleaf` onto the stack,
collapsing after each push; the output is the bottom stack entry. -/
def treehash (P : Prims) (height : Nat) (sk : List Nat) (leaf : Leafaddr) (masks : List Nat) :
    List Nat :=
  let stack := (List.range' leaf.subleaf (2 ^ height)).foldl
    (fun st s =>
      collapse P masks ((genLeafWots P masks sk { leaf with subleaf := s }, 0) :: st)) []
  ((stack.getLast?).getD ([], 0)).1

/-! ## `validateAuthpath` (sign.go lines 112-136) -/

/-- One iteration of the `validateAuthpath` loop (sign.go lines 124-134).
State: the 64-byte `buffer` as a `(lo, hi)` pair of 32-byte halves, the
shifted `leafidx`, and the remaining authpath; `i` is the loop counter.
The iteration first shifts `leafidx`, hashes the buffer into the half chosen
by the new low bit, and copies the next authpath block into the other half. -/
def vaStep (P : Prims) (masks : List Nat) :
    (List Nat × List Nat) × Nat × List Nat → Nat → (List Nat × List Nat) × Nat × List Nat
  | ((lo, hi), idx, ap), i =>
    if (idx >>> 1) % 2 = 1 then
      ((ap.take 32, h2B P (lo ++ hi) (masks.drop (2 * (wotsLogL + i) * 32))), idx >>> 1,
        ap.drop 32)
    else
      ((h2B P (lo ++ hi) (masks.drop (2 * (wotsLogL + i) * 32)), ap.take 32), idx >>> 1,
        ap.drop 32)

/-- `validateAuthpath(root, leaf, leafidx, authpath, masks, height)` (sign.go
lines 112-136): place the leaf left or right of the first authpath block by
the low bit of `leafidx`, run `height − 1` combine-and-load steps, and emit
the final masked hash of the buffer. -/
def validateAuthpath (P : Prims) (leaf : List Nat) (leafidx : Nat) (authpath masks : List Nat)
    (height : Nat) : List Nat :=
  let init : (List Nat × List Nat) × Nat × List Nat :=
    if leafidx % 2 = 1 then ((authpath.take 32, leaf.take 32), leafidx, authpath.drop 32)
    else ((leaf.take 32, authpath.take 32), leafidx, authpath.drop 32)
  let fin := (List.range (height - 1)).foldl (vaStep P masks) init
  h2B P (fin.1.1 ++ fin.1.2) (masks.drop (2 * (wotsLogL + height - 1) * 32))

/-! ## `computeAuthpathWots` (sign.go lines 138-174)

The fully materialized subtree.  The Go `tree` buffer is 64 contiguous
32-byte node slots (slot `2^(5−ℓ) + z` holds node `z` of level `ℓ`); the
embedding represents it as a slot-indexed function. -/

/-- The level-`level` pass of the tree loop (sign.go lines 157-162) with
`i = 32 >> level`: for each even `j < i` write slot `i/2 + j/2` with the
masked hash of slots `i+j, i+j+1`.  (At `i = 1` the loop body runs once and
writes the unused slot 0, as the code does.) -/
def cawRound (P : Prims) (masks : List Nat) (level i : Nat) (t : Nat → List Nat) :
    Nat → List Nat :=
  fun k =>
    if i >>> 1 ≤ k ∧ k < i >>> 1 + (i + 1) >>> 1 then
      let j := 2 * (k - i >>> 1)
      h2B P (t (i + j) ++ t (i + j + 1)) (masks.drop (2 * (wotsLogL + level) * 32))
    else t k

/-- The fully built node buffer of `computeAuthpathWots` (sign.go lines
144-162): leaves `genLeafWots` at slots 32..63 (level-0 loop), then the six
tree passes `i = 32,16,8,4,2,1`. -/
def cawTreeFn (P : Prims) (leafFn : Nat → List Nat) (masks : List Nat) : Nat → List Nat :=
  (List.range 6).foldl (fun t lvl => cawRound P masks lvl (32 >>> lvl) t)
    (fun k => if 32 ≤ k ∧ k < 64 then leafFn (k - 32) else List.replicate 32 0)

/-- `computeAuthpathWots(root, authpath, a, sk, masks, height)` (sign.go lines
138-174): build all 32 leaves for subleaf 0..31 of `a`'s subtree, hash the
full tree, copy the authpath siblings `tree[(32 >> i) + ((subleaf >> i) ^ 1)]`
for `i < height`, and copy the root from slot 1. -/
def computeAuthpathWots (P : Prims) (a : Leafaddr) (sk masks : List Nat) (height : Nat) :
    List Nat × List Nat :=
  let t := cawTreeFn P (fun s => genLeafWots P masks sk { a with subleaf := s }) masks
  (t 1, (List.range height).flatMap fun i => t ((32 >>> i) + ((a.subleaf >>> i) ^^^ 1)))

/-! ## The Merkle spine used by the proofs and by the HORST model -/

/-- Node `j` of level `ℓ` of the Merkle tree over `leafFn`, combining the
children of level `ℓ` with the mask pair at `masks[2*(base+ℓ)*32:]`. -/
def merkNode (P : Prims) (masks : List Nat) (base : Nat) (leafFn : Nat → List Nat) :
    Nat → Nat → List Nat
  | 0, j => leafFn j
  | ℓ + 1, j =>
    h2B P (merkNode P masks base leafFn ℓ (2 * j) ++ merkNode P masks base leafFn ℓ (2 * j + 1))
      (masks.drop (2 * (base + ℓ) * 32))

/-- The leaf-to-root fold along an authentication path: `n` combining steps
starting at level `lvl`, consuming one 32-byte sibling per step, placing the
running value by the low bit of `idx`. -/
def foldPath (P : Prims) (masks : List Nat) (base : Nat) :
    List Nat → Nat → Nat → List Nat → Nat → List Nat
  | x, _, _, _, 0 => x
  | x, lvl, idx, path, n + 1 =>
    foldPath P masks base
      (h2B P (if idx % 2 = 1 then path.take 32 ++ x else x ++ path.take 32)
        (masks.drop (2 * (base + lvl) * 32))) (lvl + 1) (idx >>> 1) (path.drop 32) n

/-! ## HORST (contract of spec §4.3)

The `horst` package is code of this repository that is not under `src/`; the
definitions below are modelled from the spec (§4.3): `sign` expands the seed
into `T = 2^16` secrets, hashes each into a leaf, builds the height-16 Merkle
tree with mask pairs `masks[2i], masks[2i+1]` at level `i`, reveals the 64
level-10 nodes in-line, and for each of the 32 indices derived from the
message hash reveals the secret and the 10-node authentication path.  The
message argument of the Go calls does not enter the computation (the indices
come from the 64-byte message hash), so it is not a parameter here.  The
signature layout is: 32 blocks of (secret ‖ authpath), then the 64 top
nodes. -/

/-- Modelled from the spec: the `j`-th 32-byte HORST secret. -/
def horstSecret (P : Prims) (seed : List Nat) (j : Nat) : List Nat :=
  List.ofFn fun i : Fin 32 => P.horstExpand seed (j * 32 + i.1) % 256

/-- Modelled from the spec: HORST leaf `j` — the one-block hash of secret `j`
masked with the head of the mask array. -/
def horstLeafFn (P : Prims) (seed masks : List Nat) : Nat → List Nat :=
  fun j => f1B P (xorB (horstSecret P seed j) masks)

/-- Modelled from the spec: the 32 HORST indices, 16-bit little-endian words
of the 64-byte message hash. -/
def horstIndices (mH : List Nat) : List Nat :=
  List.ofFn fun k : Fin 32 => mH.getD (2 * k.1) 0 + 256 * mH.getD (2 * k.1 + 1) 0

/-- Modelled from the spec: the 10-node authentication path of leaf `idx` up
to the revealed level-10 nodes. -/
def horstAuth (P : Prims) (seed masks : List Nat) (idx : Nat) : List Nat :=
  (List.range (horstLogT - 6)).flatMap fun ℓ =>
    merkNode P masks 0 (horstLeafFn P seed masks) ℓ ((idx >>> ℓ) ^^^ 1)

/-- Modelled from the spec: `horst.Sign(sig, root, message, seed, masks, mH)`
— emits the signature blob and writes the Merkle root. -/
def horstSign (P : Prims) (seed masks mH : List Nat) : List Nat × List Nat :=
  ((horstIndices mH).flatMap (fun idx => horstSecret P seed idx ++ horstAuth P seed masks idx)
      ++ (List.range 64).flatMap (fun j => merkNode P masks 0 (horstLeafFn P seed masks) 10 j),
    merkNode P masks 0 (horstLeafFn P seed masks) horstLogT 0)

/-- The revealed level-10 node `j` of a HORST signature blob. -/
def horstTopNode (sig : List Nat) (j : Nat) : List Nat :=
  (sig.drop (horstK * 352 + 32 * j)).take 32

/-- Modelled from the spec: the cross-check of `horst.Verify` — recompute each
revealed secret's leaf, fold its authpath, and compare with the corresponding
revealed top node. -/
def horstCheck (P : Prims) (sig masks mH : List Nat) : Bool :=
  (horstIndices mH).enum.all fun p =>
    let idx := p.2
    let leaf := f1B P (xorB ((sig.drop (p.1 * 352)).take 32) masks)
    foldPath P masks 0 leaf 0 idx ((sig.drop (p.1 * 352 + 32)).take 320) 10
      == horstTopNode sig (idx >>> 10)

/-- Modelled from the spec: `horst.Verify(root, sig, message, masks, mH)` —
writes into `root` the Merkle fold of the 64 revealed level-10 nodes up the
remaining 6 levels, and returns the cross-check result.  The caller in
`Verify` (sign.go line 307) discards the returned check. -/
def horstVerify (P : Prims) (sig masks mH : List Nat) : List Nat × Bool :=
  (merkNode P masks 10 (horstTopNode sig) 6 0, horstCheck P sig masks mH)

/-! ## Key generation (sign.go lines 177-192) -/

/-- The key pair built from the first `PrivateKeySize` random bytes: the
private key is the raw bytes; the public key is its mask block followed by
the top-subtree root at address `(level = nLevels − 1, 0, 0)`.  The `masks`
argument of the `treehash` call is the public-key buffer itself, whose root
region is still zero at that point (sign.go line 190). -/
def sphincsKeys (P : Prims) (rand : List Nat) : List Nat × List Nat :=
  let privateKey := rand.take PrivateKeySize
  let pkMasks := (privateKey.drop seedBytes).take (nMasks * hashSize)
  (pkMasks ++
      treehash P subtreeHeight privateKey ⟨nLevels - 1, 0, 0⟩ (pkMasks ++ List.replicate 32 0),
    privateKey)

/-- `GenerateKey(rand)` (sign.go lines 177-192): `io.ReadFull` fails — and
the error propagates — when the stream has fewer than `PrivateKeySize`
bytes. -/
def generateKey (P : Prims) (rand : List Nat) : Option (List Nat × List Nat) :=
  if rand.length < PrivateKeySize then none else some (sphincsKeys P rand)

/-! ## Sign (sign.go lines 195-279) -/

/-- The per-level loop of `Sign` (sign.go lines 262-274), emitting `n` more
levels starting at level `i`: set the address level, derive the seed,
WOTS-sign the running root, emit the authpath, ascend. -/
def signLoop (P : Prims) (tsk masks : List Nat) : Nat → Nat → List Nat → Leafaddr → List Nat
  | 0, _, _, _ => []
  | n + 1, i, root, a =>
    let a' : Leafaddr := { a with level := i }
    let seed := getSeed P tsk a'
    let cw := computeAuthpathWots P a' tsk masks subtreeHeight
    wotsSign P root seed masks ++ cw.2 ++
      signLoop P tsk masks n (i + 1) cw.1
        ⟨a'.level, a'.subtree >>> subtreeHeight, a'.subtree &&& ((1 <<< subtreeHeight) - 1)⟩

/-- `Sign(privateKey, message)` (sign.go lines 195-279).  The signature is
written region by region into a fresh buffer and every scratch byte is
overwritten before return, so the result is the concatenation
`R ‖ leafidx(8 LE bytes) ‖ HORST sig ‖ 12 × (WOTS sig ‖ authpath)`.
`leafidx` is the low 60 bits of the little-endian `uint64` read from the
first 8 bytes of `blake512(skRandSeed ‖ message)`; `R` is bytes 16..48 of
that digest; the message hash is `blake512(R ‖ recomputed pk ‖ message)`.
The recomputed public key's `treehash` call reads its masks from the scratch
buffer whose root slot still holds the earlier `skRandSeed` copy (sign.go
lines 210-236). -/
def signFn (P : Prims) (skIn m : List Nat) : List Nat :=
  let tsk := fit PrivateKeySize skIn
  let rnd := blakeB P (tsk.drop (PrivateKeySize - skRandSeedBytes) ++ m)
  let leafidx := leU64 (rnd.take 8) &&& 0xfffffffffffffff
  let r := (rnd.drop 16).take 32
  let masks := (tsk.drop seedBytes).take (nMasks * hashSize)
  let pkFull := masks ++
    treehash P subtreeHeight tsk ⟨nLevels - 1, 0, 0⟩
      (masks ++ tsk.drop (PrivateKeySize - skRandSeedBytes))
  let mH := blakeB P (r ++ pkFull ++ m)
  let a : Leafaddr := ⟨nLevels, leafidx >>> subtreeHeight, leafidx &&& ((1 <<< subtreeHeight) - 1)⟩
  let hs := horstSign P (getSeed P tsk a) masks mH
  r ++ leU64Bytes leafidx ++ hs.1 ++ signLoop P tsk masks nLevels 0 hs.2 a

/-! ## Verify (sign.go lines 283-324) -/

/-- `subtle.ConstantTimeCompare(x, y)`: 0 on length mismatch, else 1 exactly
when the OR of the bytewise XORs is zero. -/
def constantTimeCompare (x y : List Nat) : Nat :=
  if x.length ≠ y.length then 0
  else if (List.zipWith Nat.xor x y).foldl Nat.lor 0 = 0 then 1 else 0

/-- The per-level loop of `Verify` (sign.go lines 312-320) for `n` more
levels: recompute the WOTS public key from the running root, compress it with
`lTree`, fold it up the subtree along the authpath, shift `leafidx`. -/
def verifyLoop (P : Prims) (tpk : List Nat) : Nat → List Nat → Nat → List Nat → List Nat
  | 0, _, _, root => root
  | n + 1, sigp, leafidx, root =>
    let pkhash := lTree P (wotsVerify P (sigp.take wotsSigBytes) root tpk) tpk
    let root' := validateAuthpath P pkhash (leafidx &&& 0x1f) (sigp.drop wotsSigBytes) tpk
      subtreeHeight
    verifyLoop P tpk n (sigp.drop (wotsSigBytes + subtreeHeight * hashSize)) (leafidx >>> 5) root'

/-- The 32-byte root reconstructed by `Verify` (sign.go lines 293-320): the
message hash is `blake512(sig[0:32] ‖ tpk ‖ message)`, `leafidx` is parsed
little-endian from the next 8 bytes, the HORST root is rebuilt (its check
result is discarded, sign.go line 306-307), and the 12 subtree levels are
folded up. -/
def verifyRoot (P : Prims) (tpk m sig : List Nat) : List Nat :=
  let mH := blakeB P (sig.take messageHashSeedBytes ++ tpk ++ m)
  let sigp := sig.drop messageHashSeedBytes
  let leafidx := leU64 (sigp.take 8)
  let hv := horstVerify P (sigp.drop ((totalTreeHeight + 7) / 8)) tpk mH
  verifyLoop P tpk nLevels (sigp.drop ((totalTreeHeight + 7) / 8 + horstSigBytes)) leafidx hv.1

/-- `Verify(publicKey, message, signature)` (sign.go lines 283-324): the
constant-time comparison of the reconstructed root against the stored public
root `tpk[nMasks*hash.Size:]`. -/
def verifyFn (P : Prims) (pk m sig : List Nat) : Bool :=
  let tpk := fit PublicKeySize pk
  constantTimeCompare (verifyRoot P tpk m sig) (tpk.drop (nMasks * hashSize)) == 1

/-- `Open(publicKey, message)` (sign.go lines 328-341): reject inputs shorter
than `SignatureSize` before entering the verify path; otherwise split off the
signature, verify the remainder, and return it on success. -/
def openMsg (P : Prims) (pk msg : List Nat) : Option (List Nat) :=
  if msg.length < SignatureSize then none
  else if verifyFn P pk (msg.drop SignatureSize) (msg.take SignatureSize) = false then none
  else some (msg.drop SignatureSize)

/-- A degenerate instantiation of the external primitives (every digest is
all-zero), used to evaluate the embedding at concrete inputs. -/
def zeroPrims : Prims :=
  ⟨fun _ _ _ => 0, fun _ _ => 0, fun _ _ => 0, fun _ _ => 0, fun _ _ => 0, fun _ _ => 0⟩

/-- The running root of the per-level loop of `Sign`: the value left in
`root` after the remaining `n` levels starting at level `i` (mirrors
`signLoop`, which emits the signature bytes). -/
def signLoopRoot (P : Prims) (tsk masks : List Nat) : Nat → Nat → List Nat → Leafaddr → List Nat
  | 0, _, root, _ => root
  | n + 1, i, root, a =>
    let a' : Leafaddr := { a with level := i }
    let cw := computeAuthpathWots P a' tsk masks subtreeHeight
    signLoopRoot P tsk masks n (i + 1) cw.1
      ⟨a'.level, a'.subtree >>> subtreeHeight, a'.subtree &&& ((1 <<< subtreeHeight) - 1)⟩

/-- The root of the height-5 subtree of level `lvl` at subtree index `tr`,
as a Merkle spine over the WOTS leaves. -/
def subRoot (P : Prims) (masks sk : List Nat) (lvl tr : Nat) : List Nat :=
  merkNode P masks 7 (fun s => genLeafWots P masks sk ⟨lvl, tr, s⟩) 5 0

/-! ## Bit-level helper lemmas -/

theorem land_two_pow_sub_one (x n : Nat) : x &&& (2 ^ n - 1) = x % 2 ^ n := by
  apply Nat.eq_of_testBit_eq
  intro i
  simp only [Nat.testBit_and, Nat.testBit_two_pow_sub_one, Nat.testBit_mod_two_pow]
  cases Nat.decLt i n with
  | isTrue h => simp [h]
  | isFalse h => simp [h]

theorem lor_zero_iff (a b : Nat) : a ||| b = 0 ↔ a = 0 ∧ b = 0 := by
  constructor
  · intro h
    constructor
    · apply Nat.eq_of_testBit_eq
      intro i
      have := congrArg (fun t => Nat.testBit t i) h
      simp only [Nat.testBit_lor, Nat.zero_testBit, Bool.or_eq_false_iff] at this
      simp [this.1]
    · apply Nat.eq_of_testBit_eq
      intro i
      have := congrArg (fun t => Nat.testBit t i) h
      simp only [Nat.testBit_lor, Nat.zero_testBit, Bool.or_eq_false_iff] at this
      simp [this.2]
  · rintro ⟨rfl, rfl⟩
    rfl

theorem lor_shift_eq_add {a : Nat} (b k : Nat) (ha : a < 2 ^ k) :
    a ||| (b <<< k) = a + b * 2 ^ k := by
  apply Nat.eq_of_testBit_eq
  intro i
  have hmod : (a + b * 2 ^ k) % 2 ^ k = a := by
    rw [Nat.add_mul_mod_self_right, Nat.mod_eq_of_lt ha]
  have hdiv : (a + b * 2 ^ k) / 2 ^ k = b := by
    rw [Nat.add_mul_div_right _ _ (Nat.pos_pow_of_pos k (by norm_num)),
      Nat.div_eq_of_lt ha, Nat.zero_add]
  cases Nat.decLt i k with
  | isTrue h =>
    have hr : (a + b * 2 ^ k).testBit i = a.testBit i := by
      have := Nat.testBit_mod_two_pow (a + b * 2 ^ k) k i
      rw [hmod] at this
      simp [this, h]
    rw [hr]
    simp [Nat.testBit_lor, Nat.testBit_shiftLeft, Nat.not_le.mpr h]
  | isFalse h =>
    have hik := Nat.not_lt.mp h
    have ha' : a.testBit i = false :=
      Nat.testBit_lt_two_pow (lt_of_lt_of_le ha (Nat.pow_le_pow_right (by norm_num) hik))
    have hr : (a + b * 2 ^ k).testBit i = b.testBit (i - k) := by
      have h1 : ((a + b * 2 ^ k) >>> k).testBit (i - k) = (a + b * 2 ^ k).testBit i := by
        rw [Nat.testBit_shiftRight, Nat.add_sub_cancel' hik]
      rw [← h1, Nat.shiftRight_eq_div_pow, hdiv]
    rw [hr]
    simp [Nat.testBit_lor, Nat.testBit_shiftLeft, ha', hik]

theorem testBit_one_succ (i : Nat) : Nat.testBit 1 (i + 1) = false := by
  rw [Nat.testBit_succ]
  norm_num

theorem xor_one_of_mod_two (n : Nat) :
    n ^^^ 1 = if n % 2 = 1 then n - 1 else n + 1 := by
  rcases Nat.mod_two_eq_zero_or_one n with h | h
  · have he : n ^^^ 1 = n + 1 := by
      apply Nat.eq_of_testBit_eq
      intro i
      cases i with
      | zero =>
        rw [Nat.testBit_xor]
        simp only [Nat.testBit_zero]
        have h1 : (n + 1) % 2 = 1 := by omega
        simp [h, h1]
      | succ i =>
        rw [Nat.testBit_xor, testBit_one_succ, Bool.xor_false, Nat.testBit_succ,
          Nat.testBit_succ]
        congr 1
        omega
    simp [he, h]
  · have ho : n ^^^ 1 = n - 1 := by
      apply Nat.eq_of_testBit_eq
      intro i
      cases i with
      | zero =>
        rw [Nat.testBit_xor]
        simp only [Nat.testBit_zero]
        have h1 : (n - 1) % 2 = 0 := by omega
        simp [h, h1]
      | succ i =>
        rw [Nat.testBit_xor, testBit_one_succ, Bool.xor_false, Nat.testBit_succ,
          Nat.testBit_succ]
        congr 1
        omega
    simp [ho, h]

theorem xor_one_even {n : Nat} (h : n % 2 = 0) : n ^^^ 1 = n + 1 := by
  rw [xor_one_of_mod_two]; simp [h]

theorem xor_one_odd {n : Nat} (h : n % 2 = 1) : n ^^^ 1 = n - 1 := by
  rw [xor_one_of_mod_two]; simp [h]

/-- Little-endian byte recomposition: OR-ing the shifted low bytes of `t`
rebuilds `t` modulo `2^(8n)`. -/
theorem le_recompose (t : Nat) : ∀ n,
    (List.range n).foldl (fun acc i => acc ||| ((t >>> (8 * i) % 256) <<< (8 * i))) 0 =
      t % 2 ^ (8 * n)
  | 0 => by simp [Nat.mod_one]
  | n + 1 => by
    rw [List.range_succ, List.foldl_append, le_recompose t n]
    simp only [List.foldl_cons, List.foldl_nil]
    have hlt : t % 2 ^ (8 * n) < 2 ^ (8 * n) :=
      Nat.mod_lt _ (Nat.pos_pow_of_pos _ (by norm_num))
    rw [lor_shift_eq_add _ _ hlt]
    have h256 : (256 : Nat) = 2 ^ 8 := by norm_num
    have hsplit : 2 ^ (8 * (n + 1)) = 2 ^ (8 * n) * 2 ^ 8 := by
      rw [← pow_add]; ring_nf
    rw [hsplit, Nat.mod_mul, Nat.shiftRight_eq_div_pow, h256]
    ring

/-! ## List helper lemmas -/

theorem getD_ofFn {α : Type} {n : Nat} (f : Fin n → α) (i : Nat) (d : α) (h : i < n) :
    (List.ofFn f).getD i d = f ⟨i, h⟩ := by
  rw [List.getD_eq_getElem?_getD, List.getElem?_eq_getElem (by simpa using h),
    List.getElem_ofFn]
  rfl

theorem getD_ofFn_ge {α : Type} {n : Nat} (f : Fin n → α) (i : Nat) (d : α) (h : n ≤ i) :
    (List.ofFn f).getD i d = d := by
  rw [List.getD_eq_getElem?_getD, List.getElem?_eq_none (by simpa using h)]
  rfl

theorem getD_eq_of_take_eq {α : Type} {l₁ l₂ : List α} {n : Nat} (h : l₁.take n = l₂.take n)
    {i : Nat} (hi : i < n) (d : α) : l₁.getD i d = l₂.getD i d := by
  have h1 : (l₁.take n)[i]? = (l₂.take n)[i]? := by rw [h]
  rw [List.getElem?_take, List.getElem?_take] at h1
  simp only [hi, if_pos] at h1
  rw [List.getD_eq_getElem?_getD, List.getD_eq_getElem?_getD, h1]

/-- A 32/64-byte read at offset `k` is determined by any prefix that covers
it. -/
theorem drop_take_eq_of_take_eq {α : Type} {l₁ l₂ : List α} {N k c : Nat}
    (h : l₁.take N = l₂.take N) (hkc : k + c ≤ N) :
    (l₁.drop k).take c = (l₂.drop k).take c := by
  rw [List.take_drop, List.take_drop]
  have h1 : l₁.take (k + c) = l₂.take (k + c) := by
    have e1 : (l₁.take N).take (k + c) = l₁.take (k + c) := by
      rw [List.take_take]
      congr 1
      omega
    have e2 : (l₂.take N).take (k + c) = l₂.take (k + c) := by
      rw [List.take_take]
      congr 1
      omega
    rw [← e1, ← e2, h]
  rw [h1]

theorem extract_append_left {α : Type} {a b : List α} {k c : Nat} (h : k + c ≤ a.length) :
    ((a ++ b).drop k).take c = (a.drop k).take c :=
  drop_take_eq_of_take_eq (by rw [List.take_append_of_le_length (by omega)]) h

theorem extract_append_right {α : Type} {a b : List α} {m k c : Nat} (h : a.length = m) :
    ((a ++ b).drop (m + k)).take c = (b.drop k).take c := by
  rw [← List.drop_drop, List.drop_left' h]

theorem take_all_of_length {α : Type} {l : List α} {n : Nat} (h : l.length = n) :
    l.take n = l := by
  rw [← h, List.take_length]

theorem fit_eq_of_length {l : List Nat} {n : Nat} (h : l.length = n) : fit n l = l := by
  rw [fit, List.take_append_of_le_length (by omega), take_all_of_length h]

/-! ## Length lemmas -/

theorem h2B_length (P : Prims) (inp mask : List Nat) : (h2B P inp mask).length = 32 := by
  simp [h2B]

theorem f1B_length (P : Prims) (inp : List Nat) : (f1B P inp).length = 32 := by
  simp [f1B]

theorem varlenB_length (P : Prims) (inp : List Nat) : (varlenB P inp).length = 32 := by
  simp [varlenB]

theorem blakeB_length (P : Prims) (inp : List Nat) : (blakeB P inp).length = 64 := by
  simp [blakeB]

theorem xorB_length (a b : List Nat) : (xorB a b).length = 32 := by
  simp [xorB]

theorem leU64Bytes_length (t : Nat) : (leU64Bytes t).length = 8 := by
  simp [leU64Bytes]

theorem skBlock_length (P : Prims) (seed : List Nat) (i : Nat) :
    (skBlock P seed i).length = 32 := by
  simp [skBlock]

theorem chain_length (P : Prims) (masks x : List Nat) (hx : x.length = 32) :
    ∀ n start, (chain P masks x start n).length = 32 := by
  intro n
  induction n generalizing x with
  | zero => intro start; simpa [chain] using hx
  | succ n ih =>
    intro start
    rw [chain]
    exact ih _ (f1B_length _ _) _

theorem horstSecret_length (P : Prims) (seed : List Nat) (j : Nat) :
    (horstSecret P seed j).length = 32 := by
  simp [horstSecret]

/-- Uniform-length flatMap over an index range. -/
theorem flatMap_range_length {f : Nat → List Nat} {n c : Nat}
    (h : ∀ j < n, (f j).length = c) : ((List.range n).flatMap f).length = n * c := by
  induction n with
  | zero => simp
  | succ n ih =>
    rw [List.range_succ, List.flatMap_append]
    simp only [List.length_append, List.flatMap_cons, List.flatMap_nil, List.append_nil]
    rw [ih (fun j hj => h j (by omega)), h n (by omega)]
    ring

/-- Block extraction from a uniform-length flatMap. -/
theorem flatMap_range_extract {f : Nat → List Nat} {n c : Nat}
    (h : ∀ j < n, (f j).length = c) {i : Nat} (hi : i < n) :
    (((List.range n).flatMap f).drop (c * i)).take c = f i := by
  induction n with
  | zero => omega
  | succ n ih =>
    rw [List.range_succ, List.flatMap_append]
    simp only [List.flatMap_cons, List.flatMap_nil, List.append_nil]
    rcases Nat.lt_or_ge i n with hin | hin
    · have hpre : ((List.range n).flatMap f).length = n * c :=
        flatMap_range_length (fun j hj => h j (by omega))
      rw [extract_append_left (by rw [hpre]; nlinarith)]
      exact ih (fun j hj => h j (by omega)) hin
    · have hieq : i = n := by omega
      subst hieq
      have hpre : ((List.range i).flatMap f).length = c * i := by
        rw [flatMap_range_length (fun j hj => h j (by omega))]; ring
      rw [List.drop_left' hpre, take_all_of_length (h i (by omega))]

theorem wotsPkgen_length (P : Prims) (seed masks : List Nat) :
    (wotsPkgen P seed masks).length = 2144 := by
  rw [wotsPkgen]
  exact flatMap_range_length fun j _ => chain_length P masks _ (skBlock_length P seed j) _ _

theorem wotsSign_length (P : Prims) (msg seed masks : List Nat) :
    (wotsSign P msg seed masks).length = 2144 := by
  rw [wotsSign]
  exact flatMap_range_length fun j _ => chain_length P masks _ (skBlock_length P seed j) _ _

/-- Each `lTree` round keeps 32-byte blocks and halves the count (rounding
up). -/
theorem lTreeRound_length (P : Prims) (masks : List Nat) (i : Nat) (bs : List (List Nat)) :
    (lTreeRound P masks i bs).length = bs.length / 2 + bs.length % 2 := by
  rw [lTreeRound]
  rcases Nat.mod_two_eq_zero_or_one bs.length with h | h <;> simp [h]

theorem lTree_length (P : Prims) (wotsPk masks : List Nat) :
    (lTree P wotsPk masks).length = 32 := by
  rw [lTree]
  have h7 : List.range wotsLogL = [0, 1, 2, 3, 4, 5, 6] := by rfl
  rw [h7]
  simp only [List.foldl_cons, List.foldl_nil]
  set b0 : List (List Nat) := List.ofFn fun i : Fin wotsL => (wotsPk.drop (32 * i.1)).take 32
    with hb0
  set c1 := lTreeRound P masks 0 b0 with hc1
  set c2 := lTreeRound P masks 1 c1 with hc2
  set c3 := lTreeRound P masks 2 c2 with hc3
  set c4 := lTreeRound P masks 3 c3 with hc4
  set c5 := lTreeRound P masks 4 c4 with hc5
  set c6 := lTreeRound P masks 5 c5 with hc6
  have l0 : b0.length = 67 := by simp [hb0, wotsL]
  have l1 : c1.length = 34 := by rw [hc1, lTreeRound_length, l0]
  have l2 : c2.length = 17 := by rw [hc2, lTreeRound_length, l1]
  have l3 : c3.length = 9 := by rw [hc3, lTreeRound_length, l2]
  have l4 : c4.length = 5 := by rw [hc4, lTreeRound_length, l3]
  have l5 : c5.length = 3 := by rw [hc5, lTreeRound_length, l4]
  have l6 : c6.length = 2 := by rw [hc6, lTreeRound_length, l5]
  obtain ⟨x, y, hxy⟩ := List.length_eq_two.mp l6
  rw [hxy, lTreeRound]
  simp [h2B_length]

theorem genLeafWots_length (P : Prims) (masks sk : List Nat) (a : Leafaddr) :
    (genLeafWots P masks sk a).length = 32 :=
  lTree_length P _ masks

theorem merkNode_length (P : Prims) (masks : List Nat) (base : Nat) {leafFn : Nat → List Nat}
    (hleaf : ∀ j, (leafFn j).length = 32) :
    ∀ ℓ j, (merkNode P masks base leafFn ℓ j).length = 32
  | 0, j => hleaf j
  | ℓ + 1, j => by rw [merkNode]; exact h2B_length _ _ _

theorem cawTreeFn_length (P : Prims) {leafFn : Nat → List Nat} (masks : List Nat)
    (hleaf : ∀ s, (leafFn s).length = 32) (k : Nat) :
    (cawTreeFn P leafFn masks k).length = 32 := by
  rw [cawTreeFn]
  have main : ∀ (L : List Nat) (t : Nat → List Nat), (∀ k, (t k).length = 32) →
      ∀ k, ((L.foldl (fun t lvl => cawRound P masks lvl (32 >>> lvl) t) t) k).length = 32 := by
    intro L
    induction L with
    | nil => intro t ht k; exact ht k
    | cons a L ih =>
      intro t ht k
      simp only [List.foldl_cons]
      refine ih _ (fun k => ?_) k
      rw [cawRound]
      by_cases h : 32 >>> a >>> 1 ≤ k ∧ k < 32 >>> a >>> 1 + (32 >>> a + 1) >>> 1
      · simp only [h, if_pos]
        exact h2B_length _ _ _
      · simp only [h, if_neg, if_false]
        exact ht k
  refine main _ _ (fun k => ?_) k
  by_cases h : 32 ≤ k ∧ k < 64
  · simp [h, hleaf]
  · simp [h]

theorem computeAuthpathWots_root_length (P : Prims) (a : Leafaddr) (sk masks : List Nat)
    (height : Nat) : (computeAuthpathWots P a sk masks height).1.length = 32 :=
  cawTreeFn_length P masks (fun s => genLeafWots_length P masks sk _) 1

theorem computeAuthpathWots_path_length (P : Prims) (a : Leafaddr) (sk masks : List Nat) :
    (computeAuthpathWots P a sk masks subtreeHeight).2.length = 160 := by
  rw [computeAuthpathWots]
  exact flatMap_range_length fun j _ =>
    cawTreeFn_length P masks (fun s => genLeafWots_length P masks sk _) _

/-- Uniform-length flatMap over an arbitrary index list. -/
theorem flatMap_list_length {α : Type} {f : α → List Nat} {c : Nat} (l : List α)
    (h : ∀ x ∈ l, (f x).length = c) : (l.flatMap f).length = l.length * c := by
  induction l with
  | nil => simp
  | cons a l ih =>
    simp only [List.flatMap_cons, List.length_append, List.length_cons]
    rw [h a (by simp), ih (fun x hx => h x (by simp [hx]))]
    ring

theorem horstLeafFn_length (P : Prims) (seed masks : List Nat) (j : Nat) :
    (horstLeafFn P seed masks j).length = 32 :=
  f1B_length P _

theorem horstAuth_length (P : Prims) (seed masks : List Nat) (idx : Nat) :
    (horstAuth P seed masks idx).length = 320 := by
  rw [horstAuth]
  exact flatMap_range_length fun j _ =>
    merkNode_length P masks 0 (horstLeafFn_length P seed masks) _ _

theorem horstSign_sig_length (P : Prims) (seed masks mH : List Nat) :
    (horstSign P seed masks mH).1.length = horstSigBytes := by
  rw [horstSign]
  simp only [List.length_append]
  rw [flatMap_list_length _ (fun x _ => by
    rw [List.length_append, horstSecret_length, horstAuth_length]),
    flatMap_range_length (fun j _ =>
      merkNode_length P masks 0 (horstLeafFn_length P seed masks) _ _)]
  simp [horstIndices, horstSigBytes, horstK, hashSize, horstLogT]

theorem wotsVerify_length (P : Prims) (sig msg masks : List Nat) (hsig : 2144 ≤ sig.length) :
    (wotsVerify P sig msg masks).length = 2144 := by
  rw [wotsVerify]
  have h : ∀ j < wotsL,
      (chain P masks ((sig.drop (32 * j)).take 32) ((wotsDigits msg).getD j 0)
        (15 - (wotsDigits msg).getD j 0)).length = 32 := by
    intro j hj
    rcases Nat.eq_zero_or_pos (15 - (wotsDigits msg).getD j 0) with h0 | hpos
    · rw [h0, chain]
      simp only [List.length_take, List.length_drop]
      rw [wotsL] at hj
      omega
    · obtain ⟨n, hn⟩ := Nat.exists_eq_succ_of_ne_zero (Nat.pos_iff_ne_zero.mp hpos)
      rw [hn, chain]
      exact chain_length P masks _ (f1B_length _ _) _ _
  rw [flatMap_range_length h]
  rfl

theorem signLoop_length (P : Prims) (tsk masks : List Nat) :
    ∀ n i root a, (signLoop P tsk masks n i root a).length = n * 2304
  | 0, _, _, _ => by simp [signLoop]
  | n + 1, i, root, a => by
    rw [signLoop]
    simp only [List.length_append]
    rw [wotsSign_length, computeAuthpathWots_path_length, signLoop_length P tsk masks n]
    ring

theorem signFn_length (P : Prims) (skIn m : List Nat) :
    (signFn P skIn m).length = SignatureSize := by
  rw [signFn]
  simp only [List.length_append, List.length_take, List.length_drop, blakeB_length,
    leU64Bytes_length, horstSign_sig_length, signLoop_length]
  simp [SignatureSize, horstSigBytes, horstK, hashSize, horstLogT, messageHashSeedBytes,
    totalTreeHeight, subtreeHeight, wotsSigBytes, wotsL, nLevels]

/-! ## Congruence lemmas

`Verify` hands the whole 1056-byte public-key copy to the subroutines as
their mask argument, while `Sign` hands the 1024-byte mask array; every mask
read is a 32- or 64-byte window at an offset bounded by `960`, so each
subroutine is determined by the first 1024 mask bytes. -/

theorem h2B_mask_congr (P : Prims) (inp : List Nat) {m₁ m₂ : List Nat}
    (h : m₁.take 64 = m₂.take 64) : h2B P inp m₁ = h2B P inp m₂ := by
  have hm : (fun j : Fin 64 => m₁.getD j.1 0) = (fun j : Fin 64 => m₂.getD j.1 0) := by
    funext j
    exact getD_eq_of_take_eq h j.2 0
  rw [h2B, h2B, hm]

theorem xorB_congr_right (a : List Nat) {b₁ b₂ : List Nat} (h : b₁.take 32 = b₂.take 32) :
    xorB a b₁ = xorB a b₂ := by
  have hm : ∀ i : Fin 32, b₁.getD i.1 0 = b₂.getD i.1 0 := fun i =>
    getD_eq_of_take_eq h i.2 0
  rw [xorB, xorB]
  congr 1
  funext i
  rw [hm i]

/-- A masked-window congruence: a `c`-byte read at offset `k ≤ 1024 − c` is
fixed by the first 1024 mask bytes. -/
theorem window_congr {m₁ m₂ : List Nat} (h : m₁.take 1024 = m₂.take 1024) {k c : Nat}
    (hk : k + c ≤ 1024) : (m₁.drop k).take c = (m₂.drop k).take c :=
  drop_take_eq_of_take_eq h hk

theorem chain_mask_congr (P : Prims) {m₁ m₂ : List Nat} (h : m₁.take 1024 = m₂.take 1024)
    (x : List Nat) : ∀ n start, start + n ≤ 32 →
      chain P m₁ x start n = chain P m₂ x start n := by
  intro n
  induction n generalizing x with
  | zero => intro start _; rw [chain, chain]
  | succ n ih =>
    intro start hs
    rw [chain, chain]
    rw [xorB_congr_right x (window_congr h (by omega))]
    exact ih _ _ (by omega)

theorem lTreeRound_mask_congr (P : Prims) {m₁ m₂ : List Nat} (h : m₁.take 1024 = m₂.take 1024)
    {i : Nat} (hi : i ≤ 15) (bs : List (List Nat)) :
    lTreeRound P m₁ i bs = lTreeRound P m₂ i bs := by
  rw [lTreeRound, lTreeRound]
  congr 1
  refine List.map_congr_left fun j _ => ?_
  exact h2B_mask_congr P _ (window_congr h (by omega))

theorem lTree_mask_congr (P : Prims) (w : List Nat) {m₁ m₂ : List Nat}
    (h : m₁.take 1024 = m₂.take 1024) : lTree P w m₁ = lTree P w m₂ := by
  rw [lTree, lTree]
  have hf : (List.range wotsLogL).foldl (fun bs i => lTreeRound P m₁ i bs)
      (List.ofFn fun i : Fin wotsL => (w.drop (32 * i.1)).take 32) =
      (List.range wotsLogL).foldl (fun bs i => lTreeRound P m₂ i bs)
      (List.ofFn fun i : Fin wotsL => (w.drop (32 * i.1)).take 32) := by
    refine List.foldl_ext _ _ _ fun bs i hi => ?_
    have hib : i ≤ 15 := by
      simp only [List.mem_range, wotsLogL] at hi
      omega
    exact lTreeRound_mask_congr P h hib bs
  rw [hf]

theorem wotsPkgen_mask_congr (P : Prims) (seed : List Nat) {m₁ m₂ : List Nat}
    (h : m₁.take 1024 = m₂.take 1024) : wotsPkgen P seed m₁ = wotsPkgen P seed m₂ := by
  rw [wotsPkgen, wotsPkgen]
  exact List.flatMap_congr fun i _ => chain_mask_congr P h _ _ _ (by omega)

/-- Every WOTS chain length — message digit or checksum digit — is at most
`w − 1 = 15`. -/
theorem wotsDigits_lt (msg : List Nat) : ∀ x ∈ wotsDigits msg, x < 16 := by
  rw [wotsDigits]
  intro x hx
  rcases List.mem_append.mp hx with hb | hc
  · rw [baseW] at hb
    obtain ⟨i, -, hx2⟩ := List.mem_flatMap.mp hb
    rcases List.mem_cons.mp hx2 with rfl | hx3
    · exact Nat.mod_lt _ (by norm_num)
    · rcases List.mem_cons.mp hx3 with rfl | hx4
      · exact Nat.mod_lt _ (by norm_num)
      · simp at hx4
  · revert hc
    generalize wotsChecksum (baseW msg) = c
    intro hc
    rcases List.mem_cons.mp hc with rfl | hc
    · exact Nat.mod_lt _ (by norm_num)
    · rcases List.mem_cons.mp hc with rfl | hc
      · exact Nat.mod_lt _ (by norm_num)
      · rcases List.mem_cons.mp hc with rfl | hc
        · exact Nat.mod_lt _ (by norm_num)
        · simp at hc

theorem wotsDigits_getD_le (msg : List Nat) (i : Nat) : (wotsDigits msg).getD i 0 ≤ 15 := by
  rw [List.getD_eq_getElem?_getD]
  cases h : (wotsDigits msg)[i]? with
  | none => simp
  | some x =>
    have hx := wotsDigits_lt msg x (List.getElem?_mem h)
    simp only [h, Option.getD_some]
    omega

theorem wotsSign_mask_congr (P : Prims) (msg seed : List Nat) {m₁ m₂ : List Nat}
    (h : m₁.take 1024 = m₂.take 1024) : wotsSign P msg seed m₁ = wotsSign P msg seed m₂ := by
  rw [wotsSign, wotsSign]
  refine List.flatMap_congr fun i _ => ?_
  have := wotsDigits_getD_le msg i
  exact chain_mask_congr P h _ _ _ (by omega)

theorem wotsVerify_mask_congr (P : Prims) (sig msg : List Nat) {m₁ m₂ : List Nat}
    (h : m₁.take 1024 = m₂.take 1024) : wotsVerify P sig msg m₁ = wotsVerify P sig msg m₂ := by
  rw [wotsVerify, wotsVerify]
  refine List.flatMap_congr fun i _ => ?_
  have := wotsDigits_getD_le msg i
  exact chain_mask_congr P h _ _ _ (by omega)

theorem genLeafWots_mask_congr (P : Prims) (sk : List Nat) (a : Leafaddr) {m₁ m₂ : List Nat}
    (h : m₁.take 1024 = m₂.take 1024) :
    genLeafWots P m₁ sk a = genLeafWots P m₂ sk a := by
  rw [genLeafWots, genLeafWots, wotsPkgen_mask_congr P _ h, lTree_mask_congr P _ h]

theorem merkNode_mask_congr (P : Prims) {m₁ m₂ : List Nat} (h : m₁.take 1024 = m₂.take 1024)
    (base : Nat) (leafFn : Nat → List Nat) :
    ∀ ℓ, base + ℓ ≤ 16 → ∀ j, merkNode P m₁ base leafFn ℓ j = merkNode P m₂ base leafFn ℓ j
  | 0, _, j => by rw [merkNode, merkNode]
  | ℓ + 1, hb, j => by
    rw [merkNode, merkNode,
      merkNode_mask_congr P h base leafFn ℓ (by omega) (2 * j),
      merkNode_mask_congr P h base leafFn ℓ (by omega) (2 * j + 1),
      h2B_mask_congr P _ (window_congr h (by omega))]

theorem merkNode_leaf_congr (P : Prims) (masks : List Nat) (base : Nat)
    {f g : Nat → List Nat} (hfg : ∀ j, f j = g j) :
    ∀ ℓ j, merkNode P masks base f ℓ j = merkNode P masks base g ℓ j
  | 0, j => hfg j
  | ℓ + 1, j => by
    rw [merkNode, merkNode, merkNode_leaf_congr P masks base hfg ℓ (2 * j),
      merkNode_leaf_congr P masks base hfg ℓ (2 * j + 1)]

theorem foldPath_mask_congr (P : Prims) {m₁ m₂ : List Nat} (h : m₁.take 1024 = m₂.take 1024)
    (base : Nat) : ∀ n x lvl idx path, base + lvl + n ≤ 16 →
      foldPath P m₁ base x lvl idx path n = foldPath P m₂ base x lvl idx path n := by
  intro n
  induction n with
  | zero => intro x lvl idx path _; rw [foldPath, foldPath]
  | succ n ih =>
    intro x lvl idx path hb
    rw [foldPath, foldPath, h2B_mask_congr P _ (window_congr h (by omega))]
    exact ih _ _ _ _ (by omega)

/-! ### Secret-key congruence: everything reads `sk` only through
`getSeed`'s 32-byte prefix. -/

theorem getSeed_sk_congr (P : Prims) {sk₁ sk₂ : List Nat} (h : sk₁.take 32 = sk₂.take 32)
    (a : Leafaddr) : getSeed P sk₁ a = getSeed P sk₂ a := by
  rw [getSeed, getSeed, getSeedInput, getSeedInput]
  rw [show sk₁.take seedBytes = sk₂.take seedBytes from h]

theorem genLeafWots_sk_congr (P : Prims) (masks : List Nat) {sk₁ sk₂ : List Nat}
    (h : sk₁.take 32 = sk₂.take 32) (a : Leafaddr) :
    genLeafWots P masks sk₁ a = genLeafWots P masks sk₂ a := by
  rw [genLeafWots, genLeafWots, getSeed_sk_congr P h a]

theorem treehash_sk_congr (P : Prims) (height : Nat) {sk₁ sk₂ : List Nat}
    (h : sk₁.take 32 = sk₂.take 32) (leaf : Leafaddr) (masks : List Nat) :
    treehash P height sk₁ leaf masks = treehash P height sk₂ leaf masks := by
  rw [treehash, treehash]
  have hf : (List.range' leaf.subleaf (2 ^ height)).foldl
      (fun st s => collapse P masks ((genLeafWots P masks sk₁ { leaf with subleaf := s }, 0) :: st))
      [] =
      (List.range' leaf.subleaf (2 ^ height)).foldl
      (fun st s => collapse P masks ((genLeafWots P masks sk₂ { leaf with subleaf := s }, 0) :: st))
      [] := by
    refine List.foldl_ext _ _ _ fun st s _ => ?_
    rw [genLeafWots_sk_congr P masks h]
  rw [hf]

/-! ## WOTS sign/verify roundtrip -/

/-- Chain walking is additive in the step count. -/
theorem chain_add (P : Prims) (masks : List Nat) :
    ∀ a x start b, chain P masks (chain P masks x start a) (start + a) b =
      chain P masks x start (a + b)
  | 0, x, start, b => by simp [chain]
  | a + 1, x, start, b => by
    rw [chain, show start + (a + 1) = (start + 1) + a from by omega,
      chain_add P masks a _ (start + 1) b,
      show a + 1 + b = (a + b) + 1 from by omega, chain]

/-- Completing a signed chain from step `digit` to step 15 reaches the
chain endpoint: `wots.Verify ∘ wots.Sign = wots.Pkgen`.  The verifier's mask
argument may differ from the signer's in bytes past 1024. -/
theorem wotsVerify_wotsSign (P : Prims) (msg seed : List Nat) {m₁ m₂ : List Nat}
    (h : m₁.take 1024 = m₂.take 1024) :
    wotsVerify P (wotsSign P msg seed m₁) msg m₂ = wotsPkgen P seed m₁ := by
  rw [wotsVerify, wotsSign, wotsPkgen]
  refine List.flatMap_congr fun i hi => ?_
  have hi' : i < wotsL := by simpa using hi
  have hblock : (((List.range wotsL).flatMap fun i =>
      chain P m₁ (skBlock P seed i) 0 ((wotsDigits msg).getD i 0)).drop (32 * i)).take 32 =
      chain P m₁ (skBlock P seed i) 0 ((wotsDigits msg).getD i 0) := by
    refine flatMap_range_extract (fun j hj => ?_) hi'
    rcases Nat.eq_zero_or_pos ((wotsDigits msg).getD j 0) with h0 | hpos
    · rw [h0, chain, skBlock_length]
    · obtain ⟨n, hn⟩ := Nat.exists_eq_succ_of_ne_zero (Nat.pos_iff_ne_zero.mp hpos)
      rw [hn, chain]
      exact chain_length P m₁ _ (f1B_length _ _) _ _
  rw [hblock]
  have hd := wotsDigits_getD_le msg i
  rw [← chain_mask_congr P h (chain P m₁ (skBlock P seed i) 0 ((wotsDigits msg).getD i 0))
    (15 - (wotsDigits msg).getD i 0) ((wotsDigits msg).getD i 0) (by omega)]
  have hstep := chain_add P m₁ ((wotsDigits msg).getD i 0) (skBlock P seed i) 0
    (15 - (wotsDigits msg).getD i 0)
  rw [Nat.zero_add] at hstep
  rw [hstep]
  have h15 : (wotsDigits msg).getD i 0 + (15 - (wotsDigits msg).getD i 0) = 15 := by omega
  rw [h15]

/-! ## The materialized subtree equals the Merkle spine -/

theorem cawRound_out (P : Prims) (m : List Nat) (lvl i : Nat) (t : Nat → List Nat) (k : Nat)
    (h : ¬(i / 2 ≤ k ∧ k < i / 2 + (i + 1) / 2)) : cawRound P m lvl i t k = t k := by
  rw [cawRound, if_neg]
  simpa only [Nat.shiftRight_one] using h

theorem cawRound_in (P : Prims) (m : List Nat) (lvl i : Nat) (t : Nat → List Nat) (k : Nat)
    (h : i / 2 ≤ k ∧ k < i / 2 + (i + 1) / 2) :
    cawRound P m lvl i t k =
      h2B P (t (i + 2 * (k - i / 2)) ++ t (i + 2 * (k - i / 2) + 1))
        (m.drop (2 * (wotsLogL + lvl) * 32)) := by
  rw [cawRound, if_pos]
  · simp only [Nat.shiftRight_one]
  · simpa only [Nat.shiftRight_one] using h

theorem merkNode_succ (P : Prims) (m : List Nat) (base : Nat) (f : Nat → List Nat)
    (ℓ j : Nat) : merkNode P m base f (ℓ + 1) j =
      h2B P (merkNode P m base f ℓ (2 * j) ++ merkNode P m base f ℓ (2 * j + 1))
        (m.drop (2 * (base + ℓ) * 32)) := rfl

/-- Slot contents of the materialized tree buffer: slot `2^(5−ℓ) + z` holds
Merkle node `z` of level `ℓ`. -/
theorem cawTreeFn_slots (P : Prims) (f : Nat → List Nat) (m : List Nat) :
    (∀ z, z < 32 → cawTreeFn P f m (32 + z) = merkNode P m 7 f 0 z) ∧
    (∀ z, z < 16 → cawTreeFn P f m (16 + z) = merkNode P m 7 f 1 z) ∧
    (∀ z, z < 8 → cawTreeFn P f m (8 + z) = merkNode P m 7 f 2 z) ∧
    (∀ z, z < 4 → cawTreeFn P f m (4 + z) = merkNode P m 7 f 3 z) ∧
    (∀ z, z < 2 → cawTreeFn P f m (2 + z) = merkNode P m 7 f 4 z) ∧
    cawTreeFn P f m 1 = merkNode P m 7 f 5 0 := by
  have hunfold : cawTreeFn P f m = cawRound P m 5 1 (cawRound P m 4 2 (cawRound P m 3 4
      (cawRound P m 2 8 (cawRound P m 1 16 (cawRound P m 0 32
      (fun k => if 32 ≤ k ∧ k < 64 then f (k - 32) else List.replicate 32 0)))))) := by
    rw [cawTreeFn, show List.range 6 = [0, 1, 2, 3, 4, 5] from rfl]
    simp only [List.foldl_cons, List.foldl_nil]
    rfl
  set t0 : Nat → List Nat := fun k => if 32 ≤ k ∧ k < 64 then f (k - 32) else List.replicate 32 0
    with ht0
  set t1 := cawRound P m 0 32 t0 with ht1
  set t2 := cawRound P m 1 16 t1 with ht2
  set t3 := cawRound P m 2 8 t2 with ht3
  set t4 := cawRound P m 3 4 t3 with ht4
  set t5 := cawRound P m 4 2 t4 with ht5
  have s0 : ∀ z, z < 32 → t0 (32 + z) = merkNode P m 7 f 0 z := by
    intro z hz
    rw [ht0]
    simp only
    rw [if_pos (by omega), merkNode]
    congr 1
    omega
  have s1 : ∀ z, z < 16 → t1 (16 + z) = merkNode P m 7 f 1 z := by
    intro z hz
    rw [ht1, cawRound_in P m 0 32 t0 (16 + z) (by omega)]
    have e1 : 32 + 2 * (16 + z - 32 / 2) = 32 + 2 * z := by omega
    rw [e1]
    have e2 : 32 + 2 * z + 1 = 32 + (2 * z + 1) := by omega
    rw [e2, s0 (2 * z) (by omega), s0 (2 * z + 1) (by omega)]
    exact (merkNode_succ P m 7 f 0 z).symm
  have s2 : ∀ z, z < 8 → t2 (8 + z) = merkNode P m 7 f 2 z := by
    intro z hz
    rw [ht2, cawRound_in P m 1 16 t1 (8 + z) (by omega)]
    have e1 : 16 + 2 * (8 + z - 16 / 2) = 16 + 2 * z := by omega
    rw [e1]
    have e2 : 16 + 2 * z + 1 = 16 + (2 * z + 1) := by omega
    rw [e2, s1 (2 * z) (by omega), s1 (2 * z + 1) (by omega)]
    exact (merkNode_succ P m 7 f 1 z).symm
  have s3 : ∀ z, z < 4 → t3 (4 + z) = merkNode P m 7 f 3 z := by
    intro z hz
    rw [ht3, cawRound_in P m 2 8 t2 (4 + z) (by omega)]
    have e1 : 8 + 2 * (4 + z - 8 / 2) = 8 + 2 * z := by omega
    rw [e1]
    have e2 : 8 + 2 * z + 1 = 8 + (2 * z + 1) := by omega
    rw [e2, s2 (2 * z) (by omega), s2 (2 * z + 1) (by omega)]
    exact (merkNode_succ P m 7 f 2 z).symm
  have s4 : ∀ z, z < 2 → t4 (2 + z) = merkNode P m 7 f 4 z := by
    intro z hz
    rw [ht4, cawRound_in P m 3 4 t3 (2 + z) (by omega)]
    have e1 : 4 + 2 * (2 + z - 4 / 2) = 4 + 2 * z := by omega
    rw [e1]
    have e2 : 4 + 2 * z + 1 = 4 + (2 * z + 1) := by omega
    rw [e2, s3 (2 * z) (by omega), s3 (2 * z + 1) (by omega)]
    exact (merkNode_succ P m 7 f 3 z).symm
  have s5 : t5 1 = merkNode P m 7 f 5 0 := by
    rw [ht5, cawRound_in P m 4 2 t4 1 (by omega)]
    have e1 : 2 + 2 * (1 - 2 / 2) = 2 + 0 := by omega
    rw [e1]
    have e2 : 2 + 0 + 1 = 2 + 1 := by omega
    rw [e2, s4 0 (by omega), s4 1 (by omega)]
    exact (merkNode_succ P m 7 f 4 0).symm
  refine ⟨?_, ?_, ?_, ?_, ?_, ?_⟩
  · intro z hz
    rw [hunfold, cawRound_out P m 5 1 t5 _ (by omega), ht5,
      cawRound_out P m 4 2 t4 _ (by omega), ht4, cawRound_out P m 3 4 t3 _ (by omega), ht3,
      cawRound_out P m 2 8 t2 _ (by omega), ht2, cawRound_out P m 1 16 t1 _ (by omega), ht1,
      cawRound_out P m 0 32 t0 _ (by omega)]
    exact s0 z hz
  · intro z hz
    rw [hunfold, cawRound_out P m 5 1 t5 _ (by omega), ht5,
      cawRound_out P m 4 2 t4 _ (by omega), ht4, cawRound_out P m 3 4 t3 _ (by omega), ht3,
      cawRound_out P m 2 8 t2 _ (by omega), ht2, cawRound_out P m 1 16 t1 _ (by omega)]
    exact s1 z hz
  · intro z hz
    rw [hunfold, cawRound_out P m 5 1 t5 _ (by omega), ht5,
      cawRound_out P m 4 2 t4 _ (by omega), ht4, cawRound_out P m 3 4 t3 _ (by omega), ht3,
      cawRound_out P m 2 8 t2 _ (by omega)]
    exact s2 z hz
  · intro z hz
    rw [hunfold, cawRound_out P m 5 1 t5 _ (by omega), ht5,
      cawRound_out P m 4 2 t4 _ (by omega), ht4, cawRound_out P m 3 4 t3 _ (by omega)]
    exact s3 z hz
  · intro z hz
    rw [hunfold, cawRound_out P m 5 1 t5 _ (by omega), ht5,
      cawRound_out P m 4 2 t4 _ (by omega)]
    exact s4 z hz
  · rw [hunfold, cawRound_out P m 5 1 t5 _ (by omega)]
    exact s5

theorem xor_one_lt {n limit : Nat} (hE : limit % 2 = 0) (h : n < limit) : n ^^^ 1 < limit := by
  rw [xor_one_of_mod_two]
  split_ifs with hif
  · omega
  · omega

/-- The root slot of the materialized tree is the Merkle root of the
subtree's 32 L-tree leaves, whatever `a.subleaf` is. -/
theorem computeAuthpathWots_fst_eq (P : Prims) (a : Leafaddr) (sk m : List Nat) (height : Nat) :
    (computeAuthpathWots P a sk m height).1 =
      merkNode P m 7 (fun s => genLeafWots P m sk { a with subleaf := s }) 5 0 := by
  have h := (cawTreeFn_slots P (fun s => genLeafWots P m sk { a with subleaf := s }) m).2.2.2.2.2
  rw [computeAuthpathWots]
  exact h

/-- The copied authpath blocks are the sibling Merkle nodes
`(subleaf >> i) ^ 1`. -/
theorem computeAuthpathWots_snd_eq (P : Prims) (a : Leafaddr) (sk m : List Nat)
    (hs : a.subleaf < 32) :
    (computeAuthpathWots P a sk m subtreeHeight).2 =
      (List.range 5).flatMap fun i =>
        merkNode P m 7 (fun s => genLeafWots P m sk { a with subleaf := s }) i
          ((a.subleaf >>> i) ^^^ 1) := by
  rw [computeAuthpathWots]
  rw [show subtreeHeight = 5 from rfl]
  refine List.flatMap_congr fun i hi => ?_
  have hi5 : i < 5 := by simpa using hi
  obtain ⟨hs0, hs1, hs2, hs3, hs4, -⟩ := cawTreeFn_slots P
    (fun s => genLeafWots P m sk { a with subleaf := s }) m
  interval_cases i
  · rw [show (32:Nat) >>> 0 = 32 from rfl, show a.subleaf >>> 0 = a.subleaf from rfl]
    exact hs0 _ (xor_one_lt (by norm_num) hs)
  · rw [show (32:Nat) >>> 1 = 16 from rfl]
    refine hs1 _ (xor_one_lt (by norm_num) ?_)
    rw [Nat.shiftRight_one]
    omega
  · rw [show (32:Nat) >>> 2 = 8 from rfl]
    refine hs2 _ (xor_one_lt (by norm_num) ?_)
    rw [Nat.shiftRight_eq_div_pow]
    omega
  · rw [show (32:Nat) >>> 3 = 4 from rfl]
    refine hs3 _ (xor_one_lt (by norm_num) ?_)
    rw [Nat.shiftRight_eq_div_pow]
    omega
  · rw [show (32:Nat) >>> 4 = 2 from rfl]
    refine hs4 _ (xor_one_lt (by norm_num) ?_)
    rw [Nat.shiftRight_eq_div_pow]
    omega

/-! ## The stack algorithm computes the Merkle root -/

theorem collapse_nil (P : Prims) (m : List Nat) : collapse P m [] = [] := by
  rw [collapse]

theorem collapse_single (P : Prims) (m : List Nat) (x : List Nat × Nat) :
    collapse P m [x] = [x] := by
  rw [collapse]

theorem collapse_cons_ne (P : Prims) (m : List Nat) (x y : List Nat × Nat)
    (rest : List (List Nat × Nat)) (h : x.2 ≠ y.2) :
    collapse P m (x :: y :: rest) = x :: y :: rest := by
  rw [collapse, if_neg h]

theorem collapse_cons_eq (P : Prims) (m : List Nat) (x y : List Nat × Nat)
    (rest : List (List Nat × Nat)) (h : x.2 = y.2) :
    collapse P m (x :: y :: rest) =
      collapse P m ((h2B P (y.1 ++ x.1) (m.drop (2 * (x.2 + wotsLogL) * 32)), x.2 + 1) :: rest) := by
  rw [collapse, if_pos h]

/-- Running the push-and-collapse loop of `treehash` over the `2^ℓ` leaves of
subtree `j` on top of a stack with strictly increasing levels (top first, all
at least `ℓ`) pushes the subtree's Merkle node. -/
theorem stack_run (P : Prims) (masks sk : List Nat) (leaf : Leafaddr) :
    ∀ ℓ j S start, start = j * 2 ^ ℓ →
      S.Chain' (fun p q : List Nat × Nat => p.2 < q.2) →
      (∀ p ∈ S.head?, ℓ ≤ p.2) →
      (List.range' start (2 ^ ℓ)).foldl
        (fun st s => collapse P masks ((genLeafWots P masks sk { leaf with subleaf := s }, 0) :: st))
        S =
      collapse P masks
        ((merkNode P masks 7 (fun s => genLeafWots P masks sk { leaf with subleaf := s }) ℓ j, ℓ)
          :: S)
  | 0, j, S, start, hstart, hchain, hhead => by
    have hj : start = j := by simpa using hstart
    subst hj
    rw [pow_zero, List.range'_one, List.foldl_cons, List.foldl_nil, merkNode]
  | ℓ + 1, j, S, start, hstart, hchain, hhead => by
    have hsplit : (2:Nat) ^ (ℓ + 1) = 2 ^ ℓ + 2 ^ ℓ := by rw [pow_succ]; ring
    rw [hsplit, ← List.range'_append, List.foldl_append]
    have hfirst := stack_run P masks sk leaf ℓ (2 * j) S start
      (by rw [hstart, pow_succ]; ring) hchain
      (fun p hp => le_trans (by omega) (hhead p hp))
    rw [hfirst]
    have hone : collapse P masks
        ((merkNode P masks 7 (fun s => genLeafWots P masks sk { leaf with subleaf := s }) ℓ
          (2 * j), ℓ) :: S) =
        (merkNode P masks 7 (fun s => genLeafWots P masks sk { leaf with subleaf := s }) ℓ
          (2 * j), ℓ) :: S := by
      cases S with
      | nil => exact collapse_single P masks _
      | cons p rest =>
        refine collapse_cons_ne P masks _ p rest ?_
        have := hhead p (by simp)
        simp only
        omega
    rw [hone]
    have hsecond := stack_run P masks sk leaf ℓ (2 * j + 1)
      ((merkNode P masks 7 (fun s => genLeafWots P masks sk { leaf with subleaf := s }) ℓ
        (2 * j), ℓ) :: S) (start + 1 * 2 ^ ℓ) (by rw [hstart, pow_succ]; ring)
      (by
        rw [List.chain'_cons']
        exact ⟨fun p hp => by
          have := hhead p hp
          omega, hchain⟩)
      (fun p hp => by
        simp only [List.head?_cons, Option.mem_def, Option.some.injEq] at hp
        rw [← hp])
    rw [hsecond]
    rw [collapse_cons_eq P masks
      (merkNode P masks 7 (fun s => genLeafWots P masks sk { leaf with subleaf := s }) ℓ
        (2 * j + 1), ℓ)
      (merkNode P masks 7 (fun s => genLeafWots P masks sk { leaf with subleaf := s }) ℓ
        (2 * j), ℓ) S rfl]
    have hval : h2B P
        (merkNode P masks 7 (fun s => genLeafWots P masks sk { leaf with subleaf := s }) ℓ
          (2 * j) ++
        merkNode P masks 7 (fun s => genLeafWots P masks sk { leaf with subleaf := s }) ℓ
          (2 * j + 1))
        (masks.drop (2 * (ℓ + wotsLogL) * 32)) =
        merkNode P masks 7 (fun s => genLeafWots P masks sk { leaf with subleaf := s }) (ℓ + 1)
          j := by
      rw [merkNode_succ]
      have harith : 2 * (ℓ + wotsLogL) * 32 = 2 * (7 + ℓ) * 32 := by
        simp only [wotsLogL]
        ring
      rw [harith]
    show collapse P masks ((h2B P
        (merkNode P masks 7 (fun s => genLeafWots P masks sk { leaf with subleaf := s }) ℓ
          (2 * j) ++
        merkNode P masks 7 (fun s => genLeafWots P masks sk { leaf with subleaf := s }) ℓ
          (2 * j + 1))
        (masks.drop (2 * (ℓ + wotsLogL) * 32)), ℓ + 1) :: S) = _
    rw [hval]

/-- `treehash` at subleaf 0 emits the Merkle root of its `2^height`-leaf
subtree. -/
theorem treehash_eq_merkNode (P : Prims) (height : Nat) (sk : List Nat) (leaf : Leafaddr)
    (masks : List Nat) (h0 : leaf.subleaf = 0) :
    treehash P height sk leaf masks =
      merkNode P masks 7 (fun s => genLeafWots P masks sk { leaf with subleaf := s }) height 0 := by
  rw [treehash]
  rw [stack_run P masks sk leaf height 0 [] leaf.subleaf (by rw [h0]; ring) (by simp) (by simp)]
  rw [collapse_single]
  simp

/-! ## `validateAuthpath` is the leaf-to-root fold -/

/-- The combine-one-step-behind loop of `validateAuthpath`, completed by the
final hash, is the direct leaf-to-root fold. -/
theorem vaLoop_eq (P : Prims) (masks : List Nat) :
    ∀ n i lo hi idx ap,
      h2B P (((List.range' i n).foldl (vaStep P masks) ((lo, hi), idx, ap)).1.1 ++
          ((List.range' i n).foldl (vaStep P masks) ((lo, hi), idx, ap)).1.2)
        (masks.drop (2 * (wotsLogL + (i + n)) * 32)) =
      foldPath P masks wotsLogL (h2B P (lo ++ hi) (masks.drop (2 * (wotsLogL + i) * 32)))
        (i + 1) (idx >>> 1) ap n := by
  intro n
  induction n with
  | zero =>
    intro i lo hi idx ap
    rw [foldPath, List.range'_zero, List.foldl_nil, Nat.add_zero]
  | succ n ih =>
    intro i lo hi idx ap
    rw [List.range'_succ, List.foldl_cons, foldPath]
    rcases Nat.mod_two_eq_zero_or_one (idx >>> 1) with hpar | hpar
    · rw [show vaStep P masks ((lo, hi), idx, ap) i =
          ((h2B P (lo ++ hi) (masks.drop (2 * (wotsLogL + i) * 32)), ap.take 32), idx >>> 1,
            ap.drop 32) from by rw [vaStep, if_neg (by omega)]]
      rw [show i + (n + 1) = (i + 1) + n from by omega]
      rw [ih (i + 1) _ _ (idx >>> 1) (ap.drop 32)]
      rw [if_neg (by omega)]
    · rw [show vaStep P masks ((lo, hi), idx, ap) i =
          ((ap.take 32, h2B P (lo ++ hi) (masks.drop (2 * (wotsLogL + i) * 32))), idx >>> 1,
            ap.drop 32) from by rw [vaStep, if_pos hpar]]
      rw [show i + (n + 1) = (i + 1) + n from by omega]
      rw [ih (i + 1) _ _ (idx >>> 1) (ap.drop 32)]
      rw [if_pos hpar]

/-- `validateAuthpath` equals the direct fold (any positive height). -/
theorem validateAuthpath_eq_foldPath (P : Prims) (leaf : List Nat) (s : Nat)
    (path masks : List Nat) (height : Nat) (hh : 1 ≤ height) :
    validateAuthpath P leaf s path masks height =
      foldPath P masks wotsLogL (leaf.take 32) 0 s path height := by
  obtain ⟨h', rfl⟩ : ∃ h', height = h' + 1 := ⟨height - 1, by omega⟩
  rw [validateAuthpath]
  simp only [Nat.add_sub_cancel]
  rw [List.range_eq_range']
  rcases Nat.mod_two_eq_zero_or_one s with hpar | hpar
  · rw [if_neg (by omega)]
    have hv := vaLoop_eq P masks h' 0 (leaf.take 32) (path.take 32) s (path.drop 32)
    rw [show 2 * (wotsLogL + (h' + 1) - 1) * 32 = 2 * (wotsLogL + (0 + h')) * 32 from by omega]
    rw [hv, foldPath]
    rw [if_neg (by omega)]
  · rw [if_pos hpar]
    have hv := vaLoop_eq P masks h' 0 (path.take 32) (leaf.take 32) s (path.drop 32)
    rw [show 2 * (wotsLogL + (h' + 1) - 1) * 32 = 2 * (wotsLogL + (0 + h')) * 32 from by omega]
    rw [hv, foldPath]
    rw [if_pos hpar]

/-- Folding a Merkle leaf up along its sibling path reaches the ancestor
node; trailing bytes after the path are ignored. -/
theorem foldPath_merk (P : Prims) (masks : List Nat) (base : Nat) (leafFn : Nat → List Nat)
    (hleaf : ∀ j, (leafFn j).length = 32) :
    ∀ n lvl s junk,
      foldPath P masks base (merkNode P masks base leafFn lvl s) lvl s
        (((List.range n).flatMap fun ℓ =>
          merkNode P masks base leafFn (lvl + ℓ) ((s >>> ℓ) ^^^ 1)) ++ junk) n =
      merkNode P masks base leafFn (lvl + n) (s >>> n) := by
  intro n
  induction n with
  | zero =>
    intro lvl s junk
    rw [foldPath, Nat.add_zero, Nat.shiftRight_zero]
  | succ n ih =>
    intro lvl s junk
    rw [List.range_succ_eq_map, List.flatMap_cons, List.flatMap_map]
    have hsib0 : merkNode P masks base leafFn (lvl + 0) ((s >>> 0) ^^^ 1) =
        merkNode P masks base leafFn lvl (s ^^^ 1) := by
      rw [Nat.add_zero, Nat.shiftRight_zero]
    rw [hsib0, List.append_assoc, foldPath]
    have hlen : (merkNode P masks base leafFn lvl (s ^^^ 1)).length = 32 :=
      merkNode_length P masks base hleaf lvl _
    rw [List.take_left' hlen, List.drop_left' hlen]
    have hreindex : ((List.range n).flatMap fun ℓ =>
        merkNode P masks base leafFn (lvl + (ℓ + 1)) ((s >>> (ℓ + 1)) ^^^ 1)) =
        (List.range n).flatMap fun ℓ =>
          merkNode P masks base leafFn ((lvl + 1) + ℓ) (((s >>> 1) >>> ℓ) ^^^ 1) := by
      refine List.flatMap_congr fun ℓ _ => ?_
      rw [show lvl + (ℓ + 1) = (lvl + 1) + ℓ from by omega,
        show ℓ + 1 = 1 + ℓ from by omega, Nat.shiftRight_add]
    rcases Nat.mod_two_eq_zero_or_one s with hpar | hpar
    · rw [if_neg (by omega)]
      have hcomb : h2B P (merkNode P masks base leafFn lvl s ++
          merkNode P masks base leafFn lvl (s ^^^ 1)) (masks.drop (2 * (base + lvl) * 32)) =
          merkNode P masks base leafFn (lvl + 1) (s >>> 1) := by
        rw [xor_one_even hpar]
        obtain ⟨t, ht⟩ : ∃ t, t = s >>> 1 := ⟨_, rfl⟩
        rw [← ht]
        have hs2 : s = 2 * t := by rw [ht, Nat.shiftRight_one]; omega
        rw [hs2]
        exact (merkNode_succ P masks base leafFn lvl t).symm
      rw [hcomb, hreindex, ih (lvl + 1) (s >>> 1) junk]
      rw [show lvl + 1 + n = lvl + (n + 1) from by omega,
        show s >>> 1 >>> n = s >>> (n + 1) from by rw [← Nat.shiftRight_add]; congr 1; omega]
    · rw [if_pos hpar]
      have hcomb : h2B P (merkNode P masks base leafFn lvl (s ^^^ 1) ++
          merkNode P masks base leafFn lvl s) (masks.drop (2 * (base + lvl) * 32)) =
          merkNode P masks base leafFn (lvl + 1) (s >>> 1) := by
        rw [xor_one_odd hpar]
        obtain ⟨t, ht⟩ : ∃ t, t = s >>> 1 := ⟨_, rfl⟩
        rw [← ht]
        have hs2 : s = 2 * t + 1 := by rw [ht, Nat.shiftRight_one]; omega
        rw [hs2]
        rw [show 2 * t + 1 - 1 = 2 * t from by omega]
        exact (merkNode_succ P masks base leafFn lvl t).symm
      rw [hcomb, hreindex, ih (lvl + 1) (s >>> 1) junk]
      rw [show lvl + 1 + n = lvl + (n + 1) from by omega,
        show s >>> 1 >>> n = s >>> (n + 1) from by rw [← Nat.shiftRight_add]; congr 1; omega]

/-! ## HORST signature layout and root roundtrip -/

theorem horstSign_secrets_length (P : Prims) (seed masks mH : List Nat) :
    ((horstIndices mH).flatMap
      (fun idx => horstSecret P seed idx ++ horstAuth P seed masks idx)).length = 11264 := by
  rw [flatMap_list_length _ (fun x _ => by
    rw [List.length_append, horstSecret_length, horstAuth_length])]
  simp [horstIndices]

/-- The 64 level-10 nodes revealed at the end of a HORST signature are read
back intact by `horstTopNode`, whatever follows the signature. -/
theorem horstTopNode_of_sign (P : Prims) (seed masks mH junk : List Nat) {j : Nat}
    (hj : j < 64) :
    horstTopNode ((horstSign P seed masks mH).1 ++ junk) j =
      merkNode P masks 0 (horstLeafFn P seed masks) 10 j := by
  have h1 : (horstSign P seed masks mH).1 =
      ((horstIndices mH).flatMap fun idx => horstSecret P seed idx ++ horstAuth P seed masks idx)
        ++ (List.range 64).flatMap fun j =>
          merkNode P masks 0 (horstLeafFn P seed masks) 10 j := rfl
  have hB : ((List.range 64).flatMap fun j =>
      merkNode P masks 0 (horstLeafFn P seed masks) 10 j).length = 64 * 32 :=
    flatMap_range_length fun j _ =>
      merkNode_length P masks 0 (horstLeafFn_length P seed masks) _ _
  rw [horstTopNode, h1, List.append_assoc]
  rw [show horstK * 352 + 32 * j = 11264 + 32 * j from by norm_num [horstK]]
  rw [extract_append_right (horstSign_secrets_length P seed masks mH)]
  rw [extract_append_left (by rw [hB]; omega)]
  exact flatMap_range_extract (fun z _ =>
    merkNode_length P masks 0 (horstLeafFn_length P seed masks) _ _) hj

/-- Congruence of a Merkle node in the leaves it actually reads. -/
theorem merkNode_leaf_congr_bounded (P : Prims) (m : List Nat) (base : Nat)
    {f g : Nat → List Nat} :
    ∀ ℓ j, (∀ z, 2 ^ ℓ * j ≤ z → z < 2 ^ ℓ * (j + 1) → f z = g z) →
      merkNode P m base f ℓ j = merkNode P m base g ℓ j
  | 0, j, hz => by
    rw [merkNode, merkNode]
    exact hz j (by omega) (by omega)
  | ℓ + 1, j, hz => by
    rw [merkNode_succ, merkNode_succ]
    have hleft := merkNode_leaf_congr_bounded P m base ℓ (2 * j) (fun z h1 h2 => by
      refine hz z ?_ ?_
      · calc 2 ^ (ℓ + 1) * j = 2 ^ ℓ * (2 * j) := by rw [pow_succ]; ring
          _ ≤ z := h1
      · calc z < 2 ^ ℓ * (2 * j + 1) := h2
          _ ≤ 2 ^ ℓ * (2 * j + 2) := Nat.mul_le_mul_left _ (by omega)
          _ = 2 ^ (ℓ + 1) * (j + 1) := by rw [pow_succ]; ring)
    have hright := merkNode_leaf_congr_bounded P m base ℓ (2 * j + 1) (fun z h1 h2 => by
      refine hz z ?_ ?_
      · calc 2 ^ (ℓ + 1) * j = 2 ^ ℓ * (2 * j) := by rw [pow_succ]; ring
          _ ≤ 2 ^ ℓ * (2 * j + 1) := Nat.mul_le_mul_left _ (by omega)
          _ ≤ z := h1
      · calc z < 2 ^ ℓ * (2 * j + 1 + 1) := h2
          _ = 2 ^ (ℓ + 1) * (j + 1) := by rw [pow_succ]; ring)
    rw [hleft, hright]

/-- A Merkle tree whose leaves are the level-`b` nodes of a deeper tree is
the upper part of that tree. -/
theorem merkNode_shift (P : Prims) (m : List Nat) (b : Nat) (f : Nat → List Nat) :
    ∀ ℓ j, merkNode P m b (fun z => merkNode P m 0 f b z) ℓ j =
      merkNode P m 0 f (b + ℓ) j
  | 0, j => by rw [merkNode, Nat.add_zero]
  | ℓ + 1, j => by
    rw [merkNode_succ, merkNode_shift P m b f ℓ (2 * j), merkNode_shift P m b f ℓ (2 * j + 1)]
    rw [show b + (ℓ + 1) = (b + ℓ) + 1 from by omega, merkNode_succ, Nat.zero_add]

/-- The root written by `horst.Verify` on a signature emitted by `horst.Sign`
is the HORST Merkle root that `horst.Sign` reported, whatever bytes follow
the signature and whether the verifier's mask buffer carries a trailing
public root. -/
theorem horstVerify_root_of_sign (P : Prims) (seed : List Nat) {masks masks' : List Nat}
    (h : masks'.take 1024 = masks.take 1024) (mH junk : List Nat) :
    (horstVerify P ((horstSign P seed masks mH).1 ++ junk) masks' mH).1 =
      (horstSign P seed masks mH).2 := by
  have h2 : (horstVerify P ((horstSign P seed masks mH).1 ++ junk) masks' mH).1 =
      merkNode P masks' 10 (horstTopNode ((horstSign P seed masks mH).1 ++ junk)) 6 0 := rfl
  rw [h2]
  rw [merkNode_leaf_congr_bounded P masks' 10 6 0 (fun z h1 h2 =>
    horstTopNode_of_sign P seed masks mH junk (by omega))]
  rw [merkNode_mask_congr P h 10 _ 6 (by norm_num) 0]
  rw [merkNode_shift P masks 10 (horstLeafFn P seed masks) 6 0]
  have h3 : (horstSign P seed masks mH).2 =
      merkNode P masks 0 (horstLeafFn P seed masks) horstLogT 0 := rfl
  rw [h3]
  norm_num [horstLogT]

/-! ## Little-endian parse/serialize roundtrip -/

theorem leU64_leU64Bytes (t : Nat) : leU64 (leU64Bytes t) = t % 2 ^ 64 := by
  rw [leU64]
  have hf : (List.range 8).foldl (fun acc i => acc ||| ((leU64Bytes t).getD i 0 <<< (8 * i))) 0 =
      (List.range 8).foldl (fun acc i => acc ||| ((t >>> (8 * i) % 256) <<< (8 * i))) 0 := by
    refine List.foldl_ext _ _ _ fun acc i hi => ?_
    have hi8 : i < 8 := by simpa using hi
    rw [leU64Bytes, getD_ofFn _ _ _ hi8]
  rw [hf, le_recompose t 8]

/-! ## `subtle.ConstantTimeCompare` decides equality -/

theorem lor_fun_eq (a b : Nat) : Nat.lor a b = a ||| b := rfl

theorem xor_fun_eq (a b : Nat) : Nat.xor a b = a ^^^ b := rfl

theorem foldl_lor_eq_zero (l : List Nat) : ∀ acc, l.foldl Nat.lor acc = 0 ↔
    acc = 0 ∧ ∀ z ∈ l, z = 0 := by
  induction l with
  | nil => intro acc; simp
  | cons a l ih =>
    intro acc
    rw [List.foldl_cons, ih]
    rw [lor_fun_eq, lor_zero_iff]
    constructor
    · rintro ⟨⟨h1, h2⟩, h3⟩
      exact ⟨h1, fun z hz => by
        rcases List.mem_cons.mp hz with rfl | hz
        · exact h2
        · exact h3 z hz⟩
    · rintro ⟨h1, h2⟩
      exact ⟨⟨h1, h2 a (by simp)⟩, fun z hz => h2 z (by simp [hz])⟩

theorem zipWith_xor_zero : ∀ (x y : List Nat), x.length = y.length →
    ((∀ z ∈ List.zipWith Nat.xor x y, z = 0) ↔ x = y)
  | [], [], _ => by simp
  | [], b :: y, h => by simp at h
  | a :: x, [], h => by simp at h
  | a :: x, b :: y, h => by
    rw [List.zipWith_cons_cons]
    have hlen : x.length = y.length := by simpa using h
    constructor
    · intro hz
      have hab0 := hz (Nat.xor a b) (List.mem_cons_self _ _)
      rw [xor_fun_eq] at hab0
      have hab : a = b := Nat.xor_eq_zero.mp hab0
      have hxy : x = y := (zipWith_xor_zero x y hlen).mp fun z hzz => hz z (by simp [hzz])
      rw [hab, hxy]
    · rintro h2
      injection h2 with hab hxy
      intro z hz
      rcases List.mem_cons.mp hz with rfl | hz
      · rw [hab, xor_fun_eq, Nat.xor_self]
      · exact (zipWith_xor_zero x y hlen).mpr hxy z hz

theorem constantTimeCompare_eq_one_iff (x y : List Nat) :
    constantTimeCompare x y = 1 ↔ x = y := by
  rw [constantTimeCompare]
  by_cases hlen : x.length = y.length
  · rw [if_neg (by omega)]
    by_cases hfold : (List.zipWith Nat.xor x y).foldl Nat.lor 0 = 0
    · rw [if_pos hfold]
      have := (foldl_lor_eq_zero (List.zipWith Nat.xor x y) 0).mp hfold
      simp only [true_iff]
      exact (zipWith_xor_zero x y hlen).mp this.2
    · rw [if_neg hfold]
      constructor
      · omega
      · intro hxy
        exfalso
        refine hfold ((foldl_lor_eq_zero _ 0).mpr ⟨rfl, ?_⟩)
        exact (zipWith_xor_zero x y hlen).mpr hxy
  · rw [if_pos hlen]
    constructor
    · omega
    · intro hxy
      exact absurd (by rw [hxy]) hlen

/-- `foldPath_merk` with nothing after the path. -/
theorem foldPath_merk_exact (P : Prims) (masks : List Nat) (base : Nat) (leafFn : Nat → List Nat)
    (hleaf : ∀ j, (leafFn j).length = 32) (n lvl s : Nat) :
    foldPath P masks base (merkNode P masks base leafFn lvl s) lvl s
      ((List.range n).flatMap fun ℓ =>
        merkNode P masks base leafFn (lvl + ℓ) ((s >>> ℓ) ^^^ 1)) n =
    merkNode P masks base leafFn (lvl + n) (s >>> n) := by
  have h := foldPath_merk P masks base leafFn hleaf n lvl s []
  rw [List.append_nil] at h
  exact h

/-! ## Claim theorems -/

/-- C2: `Verify` returns true exactly when the root it reconstructs equals
the stored public root (the last 32 bytes of the `[PublicKeySize]byte` copy
of the public key); the HORST check result is discarded by construction
(`verifyRoot` uses only the root component of `horstVerify`), so corruption
can only surface at this single constant-time comparison, and no error is
signalled in-band. -/
theorem claim_C2 (P : Prims) (pk m sig : List Nat) :
    verifyFn P pk m sig = true ↔
      verifyRoot P (fit PublicKeySize pk) m sig =
        (fit PublicKeySize pk).drop (nMasks * hashSize) := by
  rw [verifyFn]
  rw [beq_iff_eq]
  exact constantTimeCompare_eq_one_iff _ _

/-- C4: the materialized `computeAuthpathWots` and the stack-based
`treehash` compute the same height-5 subtree root, and the root is
independent of `a.subleaf`. -/
theorem claim_C4 (P : Prims) (sk masks : List Nat) (a : Leafaddr) (hs : a.subleaf < 32) :
    (computeAuthpathWots P a sk masks 5).1 =
      treehash P 5 sk { a with subleaf := 0 } masks := by
  rw [computeAuthpathWots_fst_eq P a sk masks 5]
  rw [treehash_eq_merkNode P 5 sk { a with subleaf := 0 } masks rfl]

theorem claim_C4_witness :
    (⟨0, 0, 3⟩ : Leafaddr).subleaf < 32 ∧
      (computeAuthpathWots zeroPrims ⟨0, 0, 3⟩ [] [] 5).1 =
        treehash zeroPrims 5 [] { (⟨0, 0, 3⟩ : Leafaddr) with subleaf := 0 } [] :=
  ⟨by decide, claim_C4 zeroPrims [] [] ⟨0, 0, 3⟩ (by decide)⟩

/-- C5: `validateAuthpath` applied to the L-tree leaf of `a.subleaf` and the
authpath emitted by `computeAuthpathWots` recomputes exactly the root that
`computeAuthpathWots` emitted. -/
theorem claim_C5 (P : Prims) (sk masks : List Nat) (a : Leafaddr) (hs : a.subleaf < 32) :
    validateAuthpath P (genLeafWots P masks sk a) a.subleaf
        (computeAuthpathWots P a sk masks 5).2 masks 5 =
      (computeAuthpathWots P a sk masks 5).1 := by
  have hcaw : computeAuthpathWots P a sk masks 5 = computeAuthpathWots P a sk masks subtreeHeight :=
    rfl
  rw [hcaw, computeAuthpathWots_snd_eq P a sk masks hs, computeAuthpathWots_fst_eq]
  rw [validateAuthpath_eq_foldPath P _ _ _ _ 5 (by norm_num)]
  rw [take_all_of_length (genLeafWots_length P masks sk a)]
  rw [show wotsLogL = 7 from rfl]
  have hleafeq : genLeafWots P masks sk a =
      merkNode P masks 7 (fun s => genLeafWots P masks sk { a with subleaf := s }) 0 a.subleaf :=
    rfl
  rw [hleafeq]
  have hpath : ((List.range 5).flatMap fun i =>
      merkNode P masks 7 (fun s => genLeafWots P masks sk { a with subleaf := s }) i
        ((a.subleaf >>> i) ^^^ 1)) =
      (List.range 5).flatMap fun ℓ =>
        merkNode P masks 7 (fun s => genLeafWots P masks sk { a with subleaf := s }) (0 + ℓ)
          ((a.subleaf >>> ℓ) ^^^ 1) :=
    List.flatMap_congr fun ℓ _ => by rw [Nat.zero_add]
  rw [hpath]
  rw [foldPath_merk_exact P masks 7 (fun s => genLeafWots P masks sk { a with subleaf := s })
    (fun j => genLeafWots_length P masks sk _) 5 0 a.subleaf]
  have hzero : a.subleaf >>> 5 = 0 := by
    rw [Nat.shiftRight_eq_div_pow]
    omega
  rw [hzero, Nat.zero_add]

theorem claim_C5_witness :
    (⟨0, 0, 3⟩ : Leafaddr).subleaf < 32 ∧
      validateAuthpath zeroPrims (genLeafWots zeroPrims [] [] ⟨0, 0, 3⟩)
          (⟨0, 0, 3⟩ : Leafaddr).subleaf
          (computeAuthpathWots zeroPrims ⟨0, 0, 3⟩ [] [] 5).2 [] 5 =
        (computeAuthpathWots zeroPrims ⟨0, 0, 3⟩ [] [] 5).1 :=
  ⟨by decide, claim_C5 zeroPrims [] [] ⟨0, 0, 3⟩ (by decide)⟩

/-- C6: `Sign` masks the little-endian `uint64` read from the first 8 bytes
of the 64-byte private digest down to 60 bits, takes `R` from its bytes
16..48, serializes `leafidx` into the 8 little-endian bytes after `R`, and
consequently the top 4 bits of the 8-byte leafidx field (byte 39 of the
signature) are zero. -/
theorem claim_C6 (P : Prims) (sk m : List Nat) :
    (signFn P sk m).take 32 =
      ((blakeB P ((fit PrivateKeySize sk).drop (PrivateKeySize - skRandSeedBytes) ++ m)).drop
        16).take 32 ∧
    ((signFn P sk m).drop 32).take 8 =
      leU64Bytes (leU64 ((blakeB P ((fit PrivateKeySize sk).drop
        (PrivateKeySize - skRandSeedBytes) ++ m)).take 8) &&& 0xfffffffffffffff) ∧
    (signFn P sk m).getD 39 0 < 16 := by
  simp only [signFn, List.append_assoc]
  set rnd := blakeB P ((fit PrivateKeySize sk).drop (PrivateKeySize - skRandSeedBytes) ++ m)
    with hrnd
  set L := leU64 (rnd.take 8) &&& 0xfffffffffffffff with hL
  have hrl : ((rnd.drop 16).take 32).length = 32 := by
    simp [hrnd, blakeB_length]
  refine ⟨?_, ?_, ?_⟩
  · rw [List.take_left' hrl]
  · rw [List.drop_left' hrl, List.take_left' (leU64Bytes_length L)]
  · rw [List.getD_append_right _ _ _ _ (by rw [hrl]; omega)]
    rw [hrl, show 39 - 32 = 7 from rfl]
    rw [List.getD_append _ _ _ 7 (by rw [leU64Bytes_length]; omega)]
    rw [leU64Bytes, getD_ofFn _ _ _ (by norm_num : (7 : Nat) < 8)]
    have hLlt : L < 2 ^ 60 := by
      rw [hL, show (0xfffffffffffffff : Nat) = 2 ^ 60 - 1 from by norm_num,
        land_two_pow_sub_one]
      exact Nat.mod_lt _ (by norm_num)
    show L >>> (8 * 7) % 256 < 16
    rw [Nat.shiftRight_eq_div_pow]
    have h1 : L / 2 ^ (8 * 7) < 16 := Nat.div_lt_of_lt_mul (by
      calc L < 2 ^ 60 := hLlt
        _ = 2 ^ (8 * 7) * 16 := by norm_num)
    omega

/-- C7: `getSeed` hashes the 40-byte buffer `sk[0:32] ‖ LE-u64(level |
subtree<<4 | subleaf<<59)` with the variable-length hash; being a pure
function of `(sk, a)`, two calls with the same inputs agree bit for bit. -/
theorem claim_C7 (P : Prims) (sk : List Nat) (a : Leafaddr) (hsk : 32 ≤ sk.length)
    (hlv : a.level < 16) (htr : a.subtree < 2 ^ 55) (hsl : a.subleaf < 32) :
    (getSeedInput sk a).length = 40 ∧
      getSeed P sk a =
        varlenB P (sk.take 32 ++
          leU64Bytes (a.level ||| a.subtree <<< 4 ||| a.subleaf <<< 59)) := by
  have hpack : addrPack a = a.level ||| a.subtree <<< 4 ||| a.subleaf <<< 59 := by
    rw [addrPack]
    have h1 : a.level % 2 ^ 64 = a.level := Nat.mod_eq_of_lt (by omega)
    have h2 : a.subtree <<< 4 % 2 ^ 64 = a.subtree <<< 4 := Nat.mod_eq_of_lt (by
      rw [Nat.shiftLeft_eq]
      omega)
    have h3 : a.subleaf % 2 ^ 64 = a.subleaf := Nat.mod_eq_of_lt (by omega)
    have h4 : a.subleaf <<< 59 % 2 ^ 64 = a.subleaf <<< 59 := Nat.mod_eq_of_lt (by
      rw [Nat.shiftLeft_eq]
      omega)
    rw [h1, h2, h3, h4]
  constructor
  · rw [getSeedInput]
    simp only [List.length_append, List.length_take, leU64Bytes_length]
    rw [show seedBytes = 32 from rfl]
    omega
  · rw [getSeed, getSeedInput, hpack]
    rfl

theorem claim_C7_witness :
    (getSeedInput (List.replicate 32 0) ⟨1, 2, 3⟩).length = 40 ∧
      getSeed zeroPrims (List.replicate 32 0) ⟨1, 2, 3⟩ =
        varlenB zeroPrims ((List.replicate 32 0).take 32 ++
          leU64Bytes ((⟨1, 2, 3⟩ : Leafaddr).level |||
            (⟨1, 2, 3⟩ : Leafaddr).subtree <<< 4 |||
            (⟨1, 2, 3⟩ : Leafaddr).subleaf <<< 59)) :=
  claim_C7 zeroPrims (List.replicate 32 0) ⟨1, 2, 3⟩ (by simp) (by norm_num) (by norm_num)
    (by norm_num)

/-- The low 4 bits of a packed leaf address are the level's low bits. -/
theorem addrPack_mod16 (a : Leafaddr) : addrPack a % 16 = a.level % 16 := by
  rw [show (16 : Nat) = 2 ^ 4 from by norm_num]
  apply Nat.eq_of_testBit_eq
  intro i
  rw [Nat.testBit_mod_two_pow, Nat.testBit_mod_two_pow]
  by_cases hi : i < 4
  · have hd : decide (i < 4) = true := decide_eq_true hi
    rw [hd]
    simp only [Bool.true_and]
    rw [addrPack, Nat.testBit_lor, Nat.testBit_lor]
    rw [Nat.testBit_mod_two_pow, Nat.testBit_mod_two_pow, Nat.testBit_mod_two_pow]
    rw [Nat.testBit_shiftLeft, Nat.testBit_shiftLeft]
    have h64 : decide (i < 64) = true := decide_eq_true (by omega)
    have h4 : decide (i ≥ 4) = false := decide_eq_false (by omega)
    have h59 : decide (i ≥ 59) = false := decide_eq_false (by omega)
    rw [h64, h4, h59]
    simp
  · have hd : decide (i < 4) = false := decide_eq_false hi
    rw [hd]
    simp

/-- C8 counterexample: with a degenerate external hash the HORST-address
seed and the level-0 WOTS-address seed coincide (here at `leafidx = 0`), so
"the seeds differ" is not a theorem of the code — it relies on the external
`varlen` hash separating the two distinct input buffers. -/
theorem claim_C8_counterexample :
    getSeed zeroPrims (List.replicate 32 0) ⟨nLevels, 0 >>> 5, 0 &&& 31⟩ =
      getSeed zeroPrims (List.replicate 32 0) ⟨0, 0 >>> 5, 0 &&& 31⟩ := rfl

/-- C8 (amended): for every 60-bit `leafidx`, the packed 64-bit address the
HORST signature uses (level `nLevels = 12`) differs from the packed address
of the level-0 WOTS signature with the same subtree and subleaf, hence the
40-byte `getSeed` input buffers differ; the seeds themselves differ
whenever the external `varlen` hash maps these two distinct buffers to
distinct digests. -/
theorem claim_C8 (P : Prims) (sk : List Nat) (L : Nat) (hL : L < 2 ^ 60) :
    addrPack ⟨nLevels, L >>> 5, L &&& 31⟩ ≠ addrPack ⟨0, L >>> 5, L &&& 31⟩ ∧
    getSeedInput sk ⟨nLevels, L >>> 5, L &&& 31⟩ ≠ getSeedInput sk ⟨0, L >>> 5, L &&& 31⟩ ∧
    (varlenB P (getSeedInput sk ⟨nLevels, L >>> 5, L &&& 31⟩) ≠
        varlenB P (getSeedInput sk ⟨0, L >>> 5, L &&& 31⟩) →
      getSeed P sk ⟨nLevels, L >>> 5, L &&& 31⟩ ≠ getSeed P sk ⟨0, L >>> 5, L &&& 31⟩) := by
  have hm1 : addrPack ⟨nLevels, L >>> 5, L &&& 31⟩ % 16 = 12 := by
    rw [addrPack_mod16]
    rfl
  have hm2 : addrPack ⟨0, L >>> 5, L &&& 31⟩ % 16 = 0 := by
    rw [addrPack_mod16]
    rfl
  refine ⟨?_, ?_, ?_⟩
  · intro heq
    rw [heq, hm2] at hm1
    exact absurd hm1 (by norm_num)
  · intro heq
    rw [getSeedInput, getSeedInput] at heq
    have h2 := List.append_cancel_left heq
    have hb := congrArg (fun l => l.getD 0 0) h2
    have hb1 : (leU64Bytes (addrPack ⟨nLevels, L >>> 5, L &&& 31⟩)).getD 0 0 =
        addrPack ⟨nLevels, L >>> 5, L &&& 31⟩ % 256 := by
      rw [leU64Bytes, getD_ofFn _ _ _ (by norm_num : (0 : Nat) < 8)]
      rfl
    have hb2 : (leU64Bytes (addrPack ⟨0, L >>> 5, L &&& 31⟩)).getD 0 0 =
        addrPack ⟨0, L >>> 5, L &&& 31⟩ % 256 := by
      rw [leU64Bytes, getD_ofFn _ _ _ (by norm_num : (0 : Nat) < 8)]
      rfl
    simp only at hb
    rw [hb1, hb2] at hb
    have h16 := congrArg (fun t => t % 16) hb
    simp only at h16
    rw [Nat.mod_mod_of_dvd _ (by norm_num), Nat.mod_mod_of_dvd _ (by norm_num)] at h16
    rw [hm1, hm2] at h16
    exact absurd h16 (by norm_num)
  · intro hv heq
    exact hv heq

/-- C9: the public key produced by `GenerateKey` depends only on the first
1056 bytes of the random stream (seed and public-seed); the `skRandSeed`
tail never enters the public-key computation. -/
theorem claim_C9 (P : Prims) (r1 r2 : List Nat) (h1 : r1.length = PrivateKeySize)
    (h2 : r2.length = PrivateKeySize) (hpub : r1.take 1056 = r2.take 1056) :
    (generateKey P r1).map Prod.fst = (generateKey P r2).map Prod.fst := by
  rw [generateKey, generateKey, if_neg (by omega), if_neg (by omega)]
  have hmask : ((r1.take PrivateKeySize).drop seedBytes).take (nMasks * hashSize) =
      ((r2.take PrivateKeySize).drop seedBytes).take (nMasks * hashSize) := by
    rw [show PrivateKeySize = 1088 from rfl, show seedBytes = 32 from rfl,
      show nMasks * hashSize = 1024 from rfl]
    rw [List.drop_take, List.drop_take]
    rw [show (1088 - 32 : Nat) = 1056 from rfl]
    rw [List.take_take, List.take_take]
    rw [show (1024 ⊓ 1056 : Nat) = 1024 from rfl]
    exact drop_take_eq_of_take_eq hpub (by omega)
  have hsk32 : (r1.take PrivateKeySize).take 32 = (r2.take PrivateKeySize).take 32 := by
    rw [List.take_take, List.take_take, show (32 ⊓ PrivateKeySize : Nat) = 32 from rfl]
    have h := drop_take_eq_of_take_eq hpub (show 0 + 32 ≤ 1056 by omega)
    rwa [List.drop_zero, List.drop_zero] at h
  have key : (sphincsKeys P r1).1 = (sphincsKeys P r2).1 := by
    rw [sphincsKeys, sphincsKeys]
    simp only
    rw [hmask, treehash_sk_congr P subtreeHeight hsk32]
  rw [Option.map_some', Option.map_some', key]

/-! ## The signing/verification roundtrip (C1 core) -/

/-- `treehash` at subleaf 0 is unchanged when the mask buffer changes only
past byte 1024 (it reads mask windows below offset 768 and leaf masks below
512). -/
theorem treehash_mask_tail_congr (P : Prims) (height : Nat) (sk : List Nat) (leaf : Leafaddr)
    (h0 : leaf.subleaf = 0) {M₁ M₂ : List Nat} (hM : M₁.take 1024 = M₂.take 1024)
    (hh : height ≤ 9) :
    treehash P height sk leaf M₁ = treehash P height sk leaf M₂ := by
  rw [treehash_eq_merkNode P height sk leaf M₁ h0, treehash_eq_merkNode P height sk leaf M₂ h0]
  rw [merkNode_leaf_congr P M₁ 7 (fun s => genLeafWots_mask_congr P sk _ hM) height 0]
  exact merkNode_mask_congr P hM 7 _ height (by omega) 0

theorem land31_lt (L : Nat) : L &&& 31 < 32 := by
  rw [show (31 : Nat) = 2 ^ 5 - 1 from by norm_num, land_two_pow_sub_one]
  exact Nat.mod_lt _ (by norm_num)

/-- The per-level loop of `Verify`, fed the bytes emitted by the per-level
loop of `Sign` from the same running root, recomputes exactly the root that
`Sign`'s loop carries, whatever trails the loop output. -/
theorem verifyLoop_of_signLoop (P : Prims) (sk : List Nat) {masks tpk : List Nat}
    (hmask : tpk.take 1024 = masks.take 1024) :
    ∀ n L root a junk, a.subtree = L >>> 5 → a.subleaf = L &&& 31 → ∀ i,
      verifyLoop P tpk n (signLoop P sk masks n i root a ++ junk) L root =
      signLoopRoot P sk masks n i root a := by
  intro n
  induction n with
  | zero =>
    intro L root a junk h1 h2 i
    rw [verifyLoop, signLoopRoot]
  | succ n ih =>
    intro L root a junk h1 h2 i
    simp only [signLoop, signLoopRoot, verifyLoop, List.append_assoc]
    rw [show subtreeHeight = 5 from rfl, show wotsSigBytes = 2144 from rfl,
      show hashSize = 32 from rfl]
    set a' : Leafaddr := { a with level := i } with ha'
    set ws := wotsSign P root (getSeed P sk a') masks with hws
    set cw2 := (computeAuthpathWots P a' sk masks 5).2 with hcw2
    have hws_len : ws.length = 2144 := by rw [hws, wotsSign_length]
    have hsub' : a'.subleaf = L &&& 31 := h2
    have hsub'lt : a'.subleaf < 32 := by rw [hsub']; exact land31_lt L
    have hcw2_blocks : cw2 = (List.range 5).flatMap fun ℓ =>
        merkNode P masks 7 (fun s => genLeafWots P masks sk { a' with subleaf := s }) ℓ
          ((a'.subleaf >>> ℓ) ^^^ 1) := by
      rw [hcw2]
      exact computeAuthpathWots_snd_eq P a' sk masks hsub'lt
    have hcw2_len : cw2.length = 160 := by
      rw [hcw2]
      exact computeAuthpathWots_path_length P a' sk masks
    -- the WOTS block
    rw [List.take_left' hws_len, List.drop_left' hws_len]
    have hwv : wotsVerify P ws root tpk = wotsPkgen P (getSeed P sk a') masks := by
      rw [hws]
      exact wotsVerify_wotsSign P root (getSeed P sk a') hmask.symm
    rw [hwv, lTree_mask_congr P _ hmask]
    have hgl : lTree P (wotsPkgen P (getSeed P sk a') masks) masks =
        genLeafWots P masks sk a' := rfl
    rw [hgl]
    -- the authpath fold
    set rest := signLoop P sk masks n (i + 1) (computeAuthpathWots P a' sk masks 5).1
      ⟨i, a.subtree >>> 5, a.subtree &&& (1 <<< 5 - 1)⟩ with hrest
    have hva : validateAuthpath P (genLeafWots P masks sk a') (L &&& 31)
        (cw2 ++ (rest ++ junk)) tpk 5 = (computeAuthpathWots P a' sk masks 5).1 := by
      rw [← hsub']
      rw [validateAuthpath_eq_foldPath P (genLeafWots P masks sk a') a'.subleaf
        (cw2 ++ (rest ++ junk)) tpk 5 (by norm_num)]
      rw [take_all_of_length (genLeafWots_length P masks sk a')]
      have hfc := foldPath_mask_congr P hmask wotsLogL 5 (genLeafWots P masks sk a') 0
        a'.subleaf (cw2 ++ (rest ++ junk)) (by norm_num [wotsLogL])
      rw [hfc]
      rw [show wotsLogL = 7 from rfl]
      rw [hcw2_blocks]
      have hleafeq : genLeafWots P masks sk a' =
          merkNode P masks 7 (fun s => genLeafWots P masks sk { a' with subleaf := s }) 0
            a'.subleaf := rfl
      rw [hleafeq]
      have hpath : ((List.range 5).flatMap fun ℓ =>
          merkNode P masks 7 (fun s => genLeafWots P masks sk { a' with subleaf := s }) ℓ
            ((a'.subleaf >>> ℓ) ^^^ 1)) =
          (List.range 5).flatMap fun ℓ =>
            merkNode P masks 7 (fun s => genLeafWots P masks sk { a' with subleaf := s }) (0 + ℓ)
              ((a'.subleaf >>> ℓ) ^^^ 1) :=
        List.flatMap_congr fun ℓ _ => by rw [Nat.zero_add]
      rw [hpath]
      rw [foldPath_merk P masks 7 (fun s => genLeafWots P masks sk { a' with subleaf := s })
        (fun j => genLeafWots_length P masks sk _) 5 0 a'.subleaf (rest ++ junk)]
      rw [computeAuthpathWots_fst_eq P a' sk masks 5]
      have hzero : a'.subleaf >>> 5 = 0 := by
        rw [Nat.shiftRight_eq_div_pow]
        exact Nat.div_eq_of_lt hsub'lt
      rw [hzero, Nat.zero_add]
    rw [hva]
    -- the recursion
    have hdrop3 : (ws ++ (cw2 ++ (rest ++ junk))).drop (2144 + 5 * 32) = rest ++ junk := by
      rw [show (2144 + 5 * 32 : Nat) = 2304 from rfl, ← List.append_assoc]
      refine List.drop_left' ?_
      rw [List.length_append, hws_len, hcw2_len]
    rw [hdrop3]
    exact ih (L >>> 5) _ _ junk
      (by
        show a.subtree >>> 5 = L >>> 5 >>> 5
        rw [h1])
      (by
        show a.subtree &&& (1 <<< 5 - 1) = L >>> 5 &&& 31
        rw [h1, show (1 <<< 5 - 1 : Nat) = 31 from by decide])
      (i + 1)

theorem treehash_length (P : Prims) (height : Nat) (sk : List Nat) (leaf : Leafaddr)
    (masks : List Nat) (h0 : leaf.subleaf = 0) :
    (treehash P height sk leaf masks).length = 32 := by
  rw [treehash_eq_merkNode P height sk leaf masks h0]
  exact merkNode_length P masks 7 (fun j => genLeafWots_length P masks sk _) height 0

theorem signLoopRoot_succ (P : Prims) (sk masks : List Nat) (n i : Nat) (root : List Nat)
    (a : Leafaddr) :
    signLoopRoot P sk masks (n + 1) i root a =
      signLoopRoot P sk masks n (i + 1)
        (computeAuthpathWots P { a with level := i } sk masks subtreeHeight).1
        ⟨i, a.subtree >>> subtreeHeight, a.subtree &&& (1 <<< subtreeHeight - 1)⟩ := rfl

/-- The root carried by `Sign`'s loop over `n + 1` levels starting at level
`i` is the subtree root at level `i + n` above the address's subtree. -/
theorem signLoopRoot_eq (P : Prims) (sk masks : List Nat) :
    ∀ n i root a, signLoopRoot P sk masks (n + 1) i root a =
      subRoot P masks sk (i + n) (a.subtree >>> (5 * n)) := by
  intro n
  induction n with
  | zero =>
    intro i root a
    rw [signLoopRoot_succ]
    rw [show signLoopRoot P sk masks 0 (i + 1)
      (computeAuthpathWots P { a with level := i } sk masks subtreeHeight).1
      ⟨i, a.subtree >>> subtreeHeight, a.subtree &&& (1 <<< subtreeHeight - 1)⟩ =
      (computeAuthpathWots P { a with level := i } sk masks subtreeHeight).1 from rfl]
    rw [computeAuthpathWots_fst_eq P { a with level := i } sk masks subtreeHeight, subRoot]
    exact merkNode_leaf_congr P masks 7 (fun j => rfl) 5 0
  | succ m ih =>
    intro i root a
    rw [signLoopRoot_succ, ih (i + 1)]
    rw [show (⟨i, a.subtree >>> subtreeHeight, a.subtree &&& (1 <<< subtreeHeight - 1)⟩ :
      Leafaddr).subtree = a.subtree >>> 5 from rfl]
    rw [show i + 1 + m = i + (m + 1) from by omega]
    rw [← Nat.shiftRight_add, show (5 + 5 * m : Nat) = 5 * (m + 1) from by ring]

/-- The full signing/verification roundtrip over the embedding: a signature
produced by `Sign` from the private key of a generated key pair verifies
against the matching public key. -/
theorem verify_of_sign (P : Prims) (rand m : List Nat) (hr : PrivateKeySize ≤ rand.length) :
    verifyFn P (sphincsKeys P rand).1 m (signFn P (sphincsKeys P rand).2 m) = true := by
  simp only [sphincsKeys, verifyFn, signFn]
  set S := rand.take PrivateKeySize with hS
  have hSlen : S.length = PrivateKeySize := by
    rw [hS, List.length_take]
    omega
  rw [fit_eq_of_length hSlen]
  set masks := (S.drop seedBytes).take (nMasks * hashSize) with hmasks
  have hmaskLen : masks.length = 1024 := by
    rw [hmasks, List.length_take, List.length_drop, hSlen]
    rfl
  set TH := treehash P subtreeHeight S ⟨nLevels - 1, 0, 0⟩ (masks ++ List.replicate 32 0) with hTH
  have hTHlen : TH.length = 32 := by
    rw [hTH]
    exact treehash_length P subtreeHeight S _ _ rfl
  have hpklen : (masks ++ TH).length = PublicKeySize := by
    rw [List.length_append, hmaskLen, hTHlen]
    rfl
  rw [fit_eq_of_length hpklen]
  have hmtake : (masks ++ TH).take 1024 = masks.take 1024 := by
    rw [List.take_left' hmaskLen, take_all_of_length hmaskLen]
  have hTHs : treehash P subtreeHeight S ⟨nLevels - 1, 0, 0⟩
      (masks ++ S.drop (PrivateKeySize - skRandSeedBytes)) = TH := by
    rw [hTH]
    refine treehash_mask_tail_congr P subtreeHeight S _ rfl ?_ (by norm_num [subtreeHeight])
    rw [List.take_left' hmaskLen, List.take_left' hmaskLen]
  rw [hTHs]
  set rnd := blakeB P (S.drop (PrivateKeySize - skRandSeedBytes) ++ m) with hrnd
  have hrndLen : rnd.length = 64 := by rw [hrnd]; exact blakeB_length P _
  set leafidx := leU64 (rnd.take 8) &&& 0xfffffffffffffff with hli
  have hlt : leafidx < 2 ^ 60 := by
    rw [hli, show (0xfffffffffffffff : Nat) = 2 ^ 60 - 1 from by norm_num,
      land_two_pow_sub_one]
    exact Nat.mod_lt _ (by norm_num)
  have h60 : leafidx >>> 60 = 0 := by
    rw [Nat.shiftRight_eq_div_pow]
    exact Nat.div_eq_of_lt hlt
  set r := (rnd.drop 16).take 32 with hr32
  have hrLen : r.length = 32 := by
    rw [hr32, List.length_take, List.length_drop, hrndLen]
    rfl
  set mH := blakeB P (r ++ (masks ++ TH) ++ m) with hmH
  set A : Leafaddr :=
    ⟨nLevels, leafidx >>> subtreeHeight, leafidx &&& ((1 <<< subtreeHeight) - 1)⟩ with hA
  have hA1 : A.subtree = leafidx >>> 5 := by rw [hA]; rfl
  have hA2 : A.subleaf = leafidx &&& 31 := by
    rw [hA]
    show leafidx &&& (1 <<< subtreeHeight - 1) = leafidx &&& 31
    rw [show ((1 <<< subtreeHeight) - 1 : Nat) = 31 from by decide]
  have hAsub : A.subtree >>> (5 * 11) = 0 := by
    rw [hA1, ← Nat.shiftRight_add, show (5 + 5 * 11 : Nat) = 60 from rfl, h60]
  set HS := horstSign P (getSeed P S A) masks mH with hHS
  have hHS1len : HS.1.length = 13312 := by
    rw [hHS, horstSign_sig_length]
    rfl
  have hvr : verifyRoot P (masks ++ TH) m
      (r ++ leU64Bytes leafidx ++ HS.1 ++ signLoop P S masks nLevels 0 HS.2 A) =
      subRoot P masks S 11 0 := by
    simp only [verifyRoot, List.append_assoc]
    rw [show messageHashSeedBytes = 32 from rfl,
      show ((totalTreeHeight + 7) / 8 : Nat) = 8 from rfl,
      show horstSigBytes = 13312 from rfl]
    rw [List.take_left' hrLen, List.drop_left' hrLen]
    have hmH2 : blakeB P (r ++ (masks ++ (TH ++ m))) = mH := by
      rw [hmH]
      simp only [List.append_assoc]
    rw [hmH2]
    have hlbLen : (leU64Bytes leafidx).length = 8 := leU64Bytes_length leafidx
    have hdropBig : ((leU64Bytes leafidx ++
        (HS.1 ++ signLoop P S masks nLevels 0 HS.2 A)).drop (8 + 13312)) =
        signLoop P S masks nLevels 0 HS.2 A := by
      rw [show (8 + 13312 : Nat) = 13320 from rfl, ← List.append_assoc]
      refine List.drop_left' ?_
      rw [List.length_append, hlbLen, hHS1len]
    rw [hdropBig, List.take_left' hlbLen, List.drop_left' hlbLen]
    have hleU : leU64 (leU64Bytes leafidx) = leafidx := by
      rw [leU64_leU64Bytes]
      exact Nat.mod_eq_of_lt (lt_trans hlt (by norm_num))
    rw [hleU]
    have hhv : (horstVerify P (HS.1 ++ signLoop P S masks nLevels 0 HS.2 A)
        (masks ++ TH) mH).1 = HS.2 := by
      rw [hHS]
      exact horstVerify_root_of_sign P (getSeed P S A) hmtake mH _
    rw [hhv]
    have hloop := verifyLoop_of_signLoop P S hmtake nLevels leafidx HS.2 A [] hA1 hA2 0
    rw [List.append_nil] at hloop
    rw [hloop]
    rw [show nLevels = 11 + 1 from rfl, signLoopRoot_eq P S masks 11 0 HS.2 A]
    rw [hAsub, show (0 + 11 : Nat) = 11 from rfl]
  have hTHsub : TH = subRoot P masks S 11 0 := by
    rw [hTH]
    have h1 : treehash P subtreeHeight S ⟨nLevels - 1, 0, 0⟩ (masks ++ List.replicate 32 0) =
        treehash P subtreeHeight S ⟨nLevels - 1, 0, 0⟩ masks :=
      treehash_mask_tail_congr P subtreeHeight S _ rfl
        (by rw [List.take_left' hmaskLen, take_all_of_length hmaskLen])
        (by norm_num [subtreeHeight])
    rw [h1, treehash_eq_merkNode P subtreeHeight S ⟨nLevels - 1, 0, 0⟩ masks rfl,
      show subtreeHeight = 5 from rfl, subRoot]
    exact merkNode_leaf_congr P masks 7 (fun j => rfl) 5 0
  rw [show nMasks * hashSize = 1024 from rfl, List.drop_left' hmaskLen]
  rw [hvr, hTHsub]
  rw [(constantTimeCompare_eq_one_iff (subRoot P masks S 11 0) (subRoot P masks S 11 0)).mpr rfl]
  rfl

/-- C1: for every key pair produced by `GenerateKey` from some random byte
stream and every message `m`, `Verify(publicKey, m, Sign(privateKey, m))`
returns true. -/
theorem claim_C1 (P : Prims) (rand m pk sk : List Nat)
    (h : generateKey P rand = some (pk, sk)) :
    verifyFn P pk m (signFn P sk m) = true := by
  rw [generateKey] at h
  by_cases hlen : rand.length < PrivateKeySize
  · rw [if_pos hlen] at h
    exact absurd h (by simp)
  · rw [if_neg hlen] at h
    have hps := Option.some.inj h
    have h1 : (sphincsKeys P rand).1 = pk := by rw [hps]
    have h2 : (sphincsKeys P rand).2 = sk := by rw [hps]
    rw [← h1, ← h2]
    exact verify_of_sign P rand m (by omega)

theorem claim_C1_witness :
    generateKey zeroPrims (List.replicate 1088 0) =
      some ((sphincsKeys zeroPrims (List.replicate 1088 0)).1,
        (sphincsKeys zeroPrims (List.replicate 1088 0)).2) ∧
    verifyFn zeroPrims (sphincsKeys zeroPrims (List.replicate 1088 0)).1 []
      (signFn zeroPrims (sphincsKeys zeroPrims (List.replicate 1088 0)).2 []) = true := by
  have h : generateKey zeroPrims (List.replicate 1088 0) =
      some ((sphincsKeys zeroPrims (List.replicate 1088 0)).1,
        (sphincsKeys zeroPrims (List.replicate 1088 0)).2) := by
    rw [generateKey, if_neg (by rw [List.length_replicate]; decide)]
  exact ⟨h, claim_C1 zeroPrims (List.replicate 1088 0) [] _ _ h⟩

/-- C3: `Open(publicKey, combined)` rejects inputs shorter than
`SignatureSize` without entering the verification path; otherwise it splits
`combined` into `sig = combined[0:SignatureSize]` and
`body = combined[SignatureSize:]`, errors exactly when
`Verify(publicKey, body, sig)` is false and returns `body` otherwise; in
particular `Open(pk, Sign(sk, m) ‖ m) = m` for a generated key pair. -/
theorem claim_C3 (P : Prims) (pk combined rand m : List Nat)
    (hr : PrivateKeySize ≤ rand.length) :
    (combined.length < SignatureSize → openMsg P pk combined = none) ∧
    (SignatureSize ≤ combined.length →
      openMsg P pk combined =
        if verifyFn P pk (combined.drop SignatureSize) (combined.take SignatureSize) = false
        then none else some (combined.drop SignatureSize)) ∧
    openMsg P (sphincsKeys P rand).1 (signFn P (sphincsKeys P rand).2 m ++ m) = some m := by
  refine ⟨fun h => ?_, fun h => ?_, ?_⟩
  · rw [openMsg, if_pos h]
  · rw [openMsg, if_neg (by omega)]
  · have hsiglen : (signFn P (sphincsKeys P rand).2 m).length = SignatureSize :=
      signFn_length P _ m
    rw [openMsg, if_neg (by rw [List.length_append, hsiglen]; omega)]
    rw [List.take_left' hsiglen, List.drop_left' hsiglen]
    rw [verify_of_sign P rand m hr, if_neg (by norm_num)]

theorem claim_C3_witness :
    PrivateKeySize ≤ (List.replicate 1088 (0 : Nat)).length ∧
    ((([] : List Nat).length < SignatureSize → openMsg zeroPrims [] [] = none) ∧
      (SignatureSize ≤ ([] : List Nat).length →
        openMsg zeroPrims [] [] =
          if verifyFn zeroPrims [] (([] : List Nat).drop SignatureSize)
              (([] : List Nat).take SignatureSize) = false
          then none else some (([] : List Nat).drop SignatureSize)) ∧
      openMsg zeroPrims (sphincsKeys zeroPrims (List.replicate 1088 0)).1
        (signFn zeroPrims (sphincsKeys zeroPrims (List.replicate 1088 0)).2 [] ++ []) =
        some []) := by
  have hr : PrivateKeySize ≤ (List.replicate 1088 (0 : Nat)).length := by
    rw [List.length_replicate]
    decide
  exact ⟨hr, claim_C3 zeroPrims [] [] (List.replicate 1088 0) [] hr⟩

theorem claim_C8_witness :
    (0 : Nat) < 2 ^ 60 ∧
    (addrPack ⟨nLevels, 0 >>> 5, 0 &&& 31⟩ ≠ addrPack ⟨0, 0 >>> 5, 0 &&& 31⟩ ∧
      getSeedInput [] ⟨nLevels, 0 >>> 5, 0 &&& 31⟩ ≠ getSeedInput [] ⟨0, 0 >>> 5, 0 &&& 31⟩ ∧
      (varlenB zeroPrims (getSeedInput [] ⟨nLevels, 0 >>> 5, 0 &&& 31⟩) ≠
          varlenB zeroPrims (getSeedInput [] ⟨0, 0 >>> 5, 0 &&& 31⟩) →
        getSeed zeroPrims [] ⟨nLevels, 0 >>> 5, 0 &&& 31⟩ ≠
          getSeed zeroPrims [] ⟨0, 0 >>> 5, 0 &&& 31⟩)) :=
  ⟨by norm_num, claim_C8 zeroPrims [] 0 (by norm_num)⟩

theorem claim_C9_witness :
    (List.replicate 1088 (0 : Nat)).length = PrivateKeySize ∧
    (List.replicate 1056 (0 : Nat) ++ List.replicate 32 1).length = PrivateKeySize ∧
    (List.replicate 1088 (0 : Nat)).take 1056 =
      (List.replicate 1056 (0 : Nat) ++ List.replicate 32 1).take 1056 ∧
    (generateKey zeroPrims (List.replicate 1088 0)).map Prod.fst =
      (generateKey zeroPrims (List.replicate 1056 0 ++ List.replicate 32 1)).map Prod.fst := by
  have h1 : (List.replicate 1088 (0 : Nat)).length = PrivateKeySize := by
    rw [List.length_replicate]
    rfl
  have h2 : (List.replicate 1056 (0 : Nat) ++ List.replicate 32 1).length = PrivateKeySize := by
    rw [List.length_append, List.length_replicate, List.length_replicate]
    rfl
  have h3 : (List.replicate 1088 (0 : Nat)).take 1056 =
      (List.replicate 1056 (0 : Nat) ++ List.replicate 32 1).take 1056 := by
    rw [List.take_replicate, List.take_left' (by rw [List.length_replicate])]
    rfl
  exact ⟨h1, h2, h3, claim_C9 zeroPrims _ _ h1 h2 h3⟩

end Sphincs
